import Mathlib

/-!
Verification development for the DTO generator (`generator/generate_dto.go`).

The Go source is shallowly embedded: pure helpers (`parseFieldType`,
`getBetweenBrackets`, `fieldIsAMap`, `fieldIsASlice`) become Lean functions on
`String`/`List Char`; the stateful recursive walk (`Generate`,
`genDTORecursive`, `genBindingFromPB`, `genBindingToPB`) becomes explicit state
passing over an association-list manifest, with a fuel parameter standing for
the call stack (the Go recursion has no depth bound; running out of fuel, a Go
panic, or a nil-pointer dereference are all modelled as `none`).  The code
emitted by the generator (the DTO type and the two conversion-function bodies)
is modelled structurally (`Binding`, `ConvStmt`, `AssignExpr`) exactly as the
source constructs it with the jennifer AST, and a small evaluator gives the
emitted Go statements their standard semantics.
-/

set_option maxHeartbeats 1000000

namespace Kit

/-- Mirrors Go slice/prefix testing: `isPrefixOfL p l` is true iff `p` is a
prefix of the char list `l` (used to implement `strings.Contains` and
`strings.HasSuffix` below). -/
def isPrefixOfL : List Char → List Char → Bool
  | [], _ => true
  | _ :: _, [] => false
  | p :: ps, x :: xs => p == x && isPrefixOfL ps xs

/-- `strings.Contains`: does `pat` occur as a contiguous substring of the list? -/
def containsSub (pat : List Char) : List Char → Bool
  | [] => pat.isEmpty
  | x :: xs => isPrefixOfL pat (x :: xs) || containsSub pat xs

/-- `strings.HasSuffix s suffixStr` from the Go standard library. -/
def strEndsWith (s suffixStr : String) : Bool :=
  isPrefixOfL suffixStr.data.reverse s.data.reverse

/-- `strings.Split(s, "]")`: split at every `']'`, the separator character is
dropped; the result always has one more part than there are `']'` occurrences. -/
def splitOnRB : List Char → List (List Char)
  | [] => [[]]
  | c :: cs =>
    if c = ']' then [] :: splitOnRB cs
    else
      match splitOnRB cs with
      | [] => [[c]]
      | h :: t => (c :: h) :: t

/-- Scan for the closing bracket of a candidate regex match `\[[^\[\]]*\]`:
returns the chars strictly between the opening bracket (already consumed) and
the next `']'`, failing if another bracket char or the end of the string is hit
first. -/
def tryClose : List Char → Option (List Char)
  | [] => none
  | c :: cs =>
    if c == ']' then some []
    else if c == '[' then none
    else (tryClose cs).map (fun mid => c :: mid)

/-- First (leftmost) match of the regex `\[([^\[\]]*)\]` used by
`getBetweenBrackets`, returned without its surrounding brackets.  The regex
engine tries each start position left to right, which is exactly this scan. -/
def firstBracketPair : List Char → Option (List Char)
  | [] => none
  | c :: cs =>
    if c == '[' then
      match tryClose cs with
      | some mid => some mid
      | none => firstBracketPair cs
    else firstBracketPair cs

/-- `getBetweenBrackets` from the source: `FindAllString` of `\[([^\[\]]*)\]`
followed by `allMatches[0]` (a panic, i.e. `none`, when there is no match) and
trimming the brackets.  The matched text is `'['`, bracket-free middle, `']'`,
so the two `strings.Trim` calls return exactly the middle. -/
def getBetweenBrackets (s : String) : Option String :=
  (firstBracketPair s.data).map (fun mid => String.mk mid)

/-- `strings.TrimPrefix(s, "*")`: drop one leading star if present. -/
def trimStar (s : String) : String :=
  match s.data with
  | '*' :: rest => String.mk rest
  | _ => s

/-- `fieldIsAMap` from the source: the raw type string contains `map[`. -/
def fieldIsAMap (typeName : String) : Bool :=
  containsSub "map[".data typeName.data

/-- `fieldIsASlice` from the source: the raw type string contains `[]`. -/
def fieldIsASlice (typeName : String) : Bool :=
  containsSub "[]".data typeName.data

/-- `parseFieldType` from the source: slice check first, then map check, else
scalar/struct; the name is the text after the first `']'` with a leading `*`
stripped.  Go's `parts[1]` indexes out of range (a panic, modelled `none`) when
the string has no `']'`, and `getBetweenBrackets` panics (modelled `none`) when
the regex finds no bracket pair.  Result tuple: (nameNoStar, isSlice, isMap,
mapKeyType). -/
def parseFieldType (typeName : String) : Option (String × Bool × Bool × String) :=
  if fieldIsASlice typeName then
    match splitOnRB typeName.data with
    | _ :: p1 :: _ => some (trimStar (String.mk p1), true, false, "")
    | _ => none
  else if fieldIsAMap typeName then
    match splitOnRB typeName.data with
    | _ :: p1 :: _ =>
      match getBetweenBrackets typeName with
      | none => none
      | some k => some (trimStar (String.mk p1), false, true, k)
    | _ => none
  else
    some (trimStar typeName, false, false, "")

/-- `parser.NamedTypeValue` as used here: a struct field, name plus raw type
string. -/
structure Var where
  name : String
  type : String
deriving DecidableEq, Repr

/-- `parser.Struct`: a named struct with its ordered field list (`Vars`). -/
structure Struct where
  name : String
  vars : List Var
deriving DecidableEq, Repr

/-- `structState` from the source: a manifest entry, the struct plus its
mutable `Visited` flag. -/
structure StructState where
  Struct : Struct
  Visited : Bool
deriving DecidableEq, Repr

/-- `fieldState` from the source. -/
structure FieldState where
  TypeName : String
  IsStructType : Bool
  IsMap : Bool
  MapKeyType : String
  IsSlice : Bool
deriving DecidableEq, Repr

/-- The keys of the `pbNativeFields` map from the source (the values are all
`nil` and never used). -/
def pbNativeFields : List String := ["state", "sizeCache", "unknownFields"]

/-- `_, ok := pbNativeFields[name]`: membership in the exclusion set. -/
def pbNativeMem (n : String) : Bool := pbNativeFields.contains n

/-- Modelled from the spec: `utils.JsonTag` lives in the repository's `utils`
package, which is not part of the given sources.  Per the spec the retained
field name is transformed into a lower-camel-case serialization key, a pure
function of the field name; we model it as lowercasing the first character. -/
def jsonTagVal (n : String) : String :=
  match n.data with
  | [] => ""
  | c :: cs => String.mk (c.toLower :: cs)

/-- One field of the emitted DTO type definition: name, raw type (copied
verbatim from the pb struct) and the derived json tag value. -/
structure DTOField where
  name : String
  type : String
  tag : String
deriving DecidableEq, Repr

/-- Observable emission events of one generation run, in order:
`appendStruct`, the `Visited = true` assignments (recording the previous flag
value, so a `false` event is exactly a false-to-true transition), and the two
binding emissions. -/
inductive Event where
  | emitType (name : String)
  | setVisited (name : String) (prev : Bool)
  | emitFromPB (name : String)
  | emitToPB (name : String)
deriving DecidableEq, Repr

/-- A per-field statement of an emitted conversion-function body.  `mapLoop`
is the emitted `m := make(map[K]*T, len(src.f)); for k, v := range src.f { m[k]
= TConv(v) }` block and `sliceLoop` the emitted `aSlice := make([]*T, 0,
len(src.f)); for _, v := range src.f { aSlice = append(aSlice, TConv(v)) }`
block; `convFn` is the textual name of the called conversion function. -/
inductive ConvStmt where
  | mapLoop (fieldName convFn keyType : String)
  | sliceLoop (fieldName convFn : String)
deriving DecidableEq, Repr

/-- Right-hand side of one entry of the composite-literal dictionary returned
by an emitted conversion function. -/
inductive AssignExpr where
  | srcField (fieldName : String)
  | convCall (convFn fieldName : String)
  | varRef (v : String)
deriving DecidableEq, Repr

/-- An emitted conversion function: its name, the leading nil guard
(`if src == nil { return nil }`), the loop statements, and the entries of the
returned composite literal. -/
structure Binding where
  funcName : String
  nilGuard : Bool
  stmts : List ConvStmt
  dict : List (String × AssignExpr)
deriving DecidableEq, Repr

/-- One generated output unit per struct: the DTO type definition
(`typeName`, `dtoFields`), the classified field list (`fieldStates`, the
source's `fieldManifest`), and the two conversion functions. -/
structure GeneratedUnit where
  typeName : String
  dtoFields : List DTOField
  fieldStates : List (String × FieldState)
  fromPB : Binding
  toPB : Binding
deriving DecidableEq, Repr

/-- The struct manifest (`pbStructManifest`), a Go `map[string]*structState`
modelled as an association list with at most one live entry per key. -/
abbrev Manifest := List (String × StructState)

/-- Go map read `m[n]`. -/
def mLookup : Manifest → String → Option StructState
  | [], _ => none
  | (k, v) :: rest, n => if k = n then some v else mLookup rest n

/-- Go map write `m[n] = ss`: overwrite the live entry or append a new one. -/
def mInsert : Manifest → String → StructState → Manifest
  | [], n, ss => [(n, ss)]
  | (k, v) :: rest, n, ss =>
    if k = n then (n, ss) :: rest else (k, v) :: mInsert rest n ss

/-- The write `m[n].Visited = true` through the stored pointer. -/
def mSetVisited : Manifest → String → Manifest
  | [], _ => []
  | (k, v) :: rest, n =>
    if k = n then (k, ⟨v.Struct, true⟩) :: rest else (k, v) :: mSetVisited rest n

/-- Is the named struct currently marked visited? -/
def isVisited (m : Manifest) (n : String) : Bool :=
  match mLookup m n with
  | some ss => ss.Visited
  | none => false

/-- `genBindingFromPB` from the source: nil guard first; per `fieldManifest`
entry either a plain assignment (`pb.F`), a `m :=`/`aSlice :=` loop plus a
variable reference in the dictionary, or a direct conversion call.  The loop
over the source's `map[string]fieldState` is modelled in insertion order (Go
map iteration order is unspecified; none of the verified properties depend on
it). -/
def genBindingFromPB (currentPBStructName : String)
    (fieldManifest : List (String × FieldState)) : Binding :=
  { funcName := currentPBStructName ++ "FromPB"
    nilGuard := true
    stmts := fieldManifest.filterMap (fun p =>
      if !p.2.IsStructType then none
      else if p.2.IsMap then
        some (ConvStmt.mapLoop p.1 (p.2.TypeName ++ "FromPB") p.2.MapKeyType)
      else if p.2.IsSlice then
        some (ConvStmt.sliceLoop p.1 (p.2.TypeName ++ "FromPB"))
      else none)
    dict := fieldManifest.map (fun p =>
      if !p.2.IsStructType then (p.1, AssignExpr.srcField p.1)
      else if p.2.IsMap then (p.1, AssignExpr.varRef "m")
      else if p.2.IsSlice then (p.1, AssignExpr.varRef "aSlice")
      else (p.1, AssignExpr.convCall (p.2.TypeName ++ "FromPB") p.1)) }

/-- `genBindingToPB` from the source, structurally symmetric to
`genBindingFromPB` with the `ToPB` direction names. -/
def genBindingToPB (currentPBStructName : String)
    (fieldManifest : List (String × FieldState)) : Binding :=
  { funcName := currentPBStructName ++ "ToPB"
    nilGuard := true
    stmts := fieldManifest.filterMap (fun p =>
      if !p.2.IsStructType then none
      else if p.2.IsMap then
        some (ConvStmt.mapLoop p.1 (p.2.TypeName ++ "ToPB") p.2.MapKeyType)
      else if p.2.IsSlice then
        some (ConvStmt.sliceLoop p.1 (p.2.TypeName ++ "ToPB"))
      else none)
    dict := fieldManifest.map (fun p =>
      if !p.2.IsStructType then (p.1, AssignExpr.srcField p.1)
      else if p.2.IsMap then (p.1, AssignExpr.varRef "m")
      else if p.2.IsSlice then (p.1, AssignExpr.varRef "aSlice")
      else (p.1, AssignExpr.convCall (p.2.TypeName ++ "ToPB") p.1)) }

/-- Result of one `genDTORecursive` call: the updated manifest and the units
and events it emitted (the Go code appends to `g.code`; we return the deltas
and concatenate at each call site, which yields the same global order). -/
structure GenOut where
  manifest : Manifest
  units : List GeneratedUnit
  events : List Event
deriving Repr

/-- Result of the field loop of `genDTORecursive` (lines 167-206). -/
structure FieldLoopOut where
  manifest : Manifest
  fieldManifest : List (String × FieldState)
  dtoFields : List DTOField
  units : List GeneratedUnit
  events : List Event
deriving Repr

/-- The field loop of `genDTORecursive`: skip pb-native names; append the DTO
field; classify the type (`parseFieldType` panics propagate as `none`); on a
manifest hit record a struct-typed `fieldState` and, when the referenced
struct is unvisited, recurse (`g`) and then re-assert its `Visited` flag
(source line 203, recorded as a `setVisited` event with the previous value). -/
def genFields (g : Struct → Manifest → Option GenOut) :
    List Var → Manifest → Option FieldLoopOut
  | [], m => some ⟨m, [], [], [], []⟩
  | v :: vs, m =>
    if pbNativeMem v.name then genFields g vs m
    else
      match parseFieldType v.type with
      | none => none
      | some (ft, isSl, isMp, mk) =>
        let df : DTOField := ⟨v.name, v.type, jsonTagVal v.name⟩
        match mLookup m ft with
        | none =>
          match genFields g vs m with
          | none => none
          | some rest =>
            some ⟨rest.manifest, (v.name, ⟨ft, false, isMp, mk, isSl⟩) :: rest.fieldManifest,
                  df :: rest.dtoFields, rest.units, rest.events⟩
        | some ss =>
          if ss.Visited then
            match genFields g vs m with
            | none => none
            | some rest =>
              some ⟨rest.manifest, (v.name, ⟨ft, true, isMp, mk, isSl⟩) :: rest.fieldManifest,
                    df :: rest.dtoFields, rest.units, rest.events⟩
          else
            match g ss.Struct m with
            | none => none
            | some child =>
              match mLookup child.manifest ft with
              | none => none
              | some ss1 =>
                match genFields g vs (mSetVisited child.manifest ft) with
                | none => none
                | some rest =>
                  some ⟨rest.manifest, (v.name, ⟨ft, true, isMp, mk, isSl⟩) :: rest.fieldManifest,
                        df :: rest.dtoFields, child.units ++ rest.units,
                        child.events ++ [Event.setVisited ft ss1.Visited] ++ rest.events⟩

/-- `genDTORecursive` from the source.  Early return when already visited; a
missing manifest entry is the Go nil-pointer dereference of line 154 (`none`);
otherwise run the field loop, then append the DTO struct, mark visited (line
210, between the type emission and the binding emissions), and emit both
bindings.  `fuel` bounds the recursion depth; exhaustion models the
non-terminating recursion a reference cycle produces. -/
def genDTORecursive : Nat → Struct → Manifest → Option GenOut
  | 0, _, _ => none
  | Nat.succ fuel, cur, m =>
    match mLookup m cur.name with
    | none => none
    | some ss =>
      if ss.Visited then some ⟨m, [], []⟩
      else
        match genFields (genDTORecursive fuel) cur.vars m with
        | none => none
        | some fl =>
          match mLookup fl.manifest cur.name with
          | none => none
          | some ss1 =>
            some ⟨mSetVisited fl.manifest cur.name,
                  fl.units ++ [⟨cur.name, fl.dtoFields, fl.fieldManifest,
                                genBindingFromPB cur.name fl.fieldManifest,
                                genBindingToPB cur.name fl.fieldManifest⟩],
                  fl.events ++ [Event.emitType cur.name, Event.setVisited cur.name ss1.Visited,
                                Event.emitFromPB cur.name, Event.emitToPB cur.name]⟩

/-- Manifest construction loop of `Generate` (lines 121-128): one insertion
per struct in schema order, later duplicates overwriting earlier entries. -/
def buildManifest (schema : List Struct) : Manifest :=
  schema.foldl (fun m s => mInsert m s.name ⟨s, false⟩) []

/-- Root-selection loop of `Generate` (lines 131-146): with a target name only
structs of exactly that name are generated; otherwise only `*Request` /
`*Response` names. -/
def genLoop (fuel : Nat) (target : String) : List Struct → Manifest → Option GenOut
  | [], m => some ⟨m, [], []⟩
  | s :: rest, m =>
    let selected : Bool :=
      if target ≠ "" then s.name == target
      else strEndsWith s.name "Request" || strEndsWith s.name "Response"
    if selected then
      match genDTORecursive fuel s m with
      | none => none
      | some out =>
        match genLoop fuel target rest out.manifest with
        | none => none
        | some out2 => some ⟨out2.manifest, out.units ++ out2.units, out.events ++ out2.events⟩
    else genLoop fuel target rest m

/-- `Generate` from the parsed schema onward (the file-system and parsing
steps before line 119 are external collaborators): build the manifest, run the
root loop, and on success write the output file.  A `some (units, events)`
result is a written file containing the fixed header comment followed by the
units in emission order; `none` is a run that died (panic / divergence) before
`WriteFile`. -/
def Generate (schema : List Struct) (targetPBStructName : String) (fuel : Nat) :
    Option (List GeneratedUnit × List Event) :=
  (genLoop fuel targetPBStructName schema (buildManifest schema)).map
    (fun out => (out.units, out.events))

/-- Values of the emitted Go code's world: opaque scalars, slices (with the
allocation capacity of `make` tracked, so "allocated but empty" and "absent"
are distinguishable), nil slices, and maps. -/
inductive GoVal where
  | prim (s : String)
  | sliceV (capacity : Nat) (elems : List GoVal)
  | nilSliceV
  | mapV (pairs : List (String × GoVal))
deriving Repr

/-- A struct value, as the named fields of the pointed-to object. -/
abbrev GoRec := List (String × GoVal)

/-- Field / variable lookup (first live binding). -/
def recLookup : GoRec → String → Option GoVal
  | [], _ => none
  | (k, v) :: rest, n => if k = n then some v else recLookup rest n

/-- Value of one dictionary entry of the emitted return statement.  `conv`
gives the semantics of the generated conversion functions by name (they call
each other only through these names). -/
def evalExpr (conv : String → GoVal → GoVal) (src env : GoRec) :
    AssignExpr → Option GoVal
  | AssignExpr.srcField f => recLookup src f
  | AssignExpr.convCall cf f => (recLookup src f).map (conv cf)
  | AssignExpr.varRef v => recLookup env v

/-- Run the emitted loop statements in order, extending the local-variable
environment and counting executed per-field statements.  Go semantics of the
emitted text: `m :=` / `aSlice :=` is a short variable declaration, so a
second declaration of the same name in the same scope does not compile —
modelled as `none`; `make([]*T, 0, len(xs))` followed by one `append` per
source element in order yields a slice of the source's length, capacity
`len(xs)`, elements converted in source order (a nil source slice has length 0
and ranges over nothing). -/
def evalStmts (conv : String → GoVal → GoVal) (src : GoRec) :
    GoRec → List ConvStmt → Option (GoRec × Nat)
  | env, [] => some (env, 0)
  | env, ConvStmt.mapLoop f cf _k :: rest =>
    match recLookup env "m" with
    | some _ => none
    | none =>
      match recLookup src f with
      | some (GoVal.mapV prs) =>
        (evalStmts conv src
            (env ++ [("m", GoVal.mapV (prs.map (fun p => (p.1, conv cf p.2))))]) rest).map
          (fun r => (r.1, r.2 + 1))
      | _ => none
  | env, ConvStmt.sliceLoop f cf :: rest =>
    match recLookup env "aSlice" with
    | some _ => none
    | none =>
      match recLookup src f with
      | some (GoVal.sliceV _ xs) =>
        (evalStmts conv src
            (env ++ [("aSlice", GoVal.sliceV xs.length (xs.map (conv cf)))]) rest).map
          (fun r => (r.1, r.2 + 1))
      | some GoVal.nilSliceV =>
        (evalStmts conv src (env ++ [("aSlice", GoVal.sliceV 0 [])]) rest).map
          (fun r => (r.1, r.2 + 1))
      | _ => none

/-- Evaluate the returned composite literal: one entry per dictionary pair, in
order, counting each evaluated per-field assignment. -/
def evalDict (conv : String → GoVal → GoVal) (src env : GoRec) :
    List (String × AssignExpr) → Option (GoRec × Nat)
  | [] => some ([], 0)
  | (f, e) :: rest =>
    match evalExpr conv src env e with
    | none => none
    | some v => (evalDict conv src env rest).map (fun r => ((f, v) :: r.1, r.2 + 1))

/-- Result of applying an emitted conversion function: the returned pointer
(`none` = nil) and how many per-field statements/assignments ran. -/
structure EvalResult where
  result : Option GoRec
  steps : Nat
deriving Repr

/-- Apply an emitted conversion function to a source pointer.  The body begins
with the nil guard; on a nil source it returns nil having executed no field
logic.  The outer `Option` is failure of the emitted code itself (it does not
compile or panics), not a nil result. -/
def evalBinding (conv : String → GoVal → GoVal) (b : Binding) (src : Option GoRec) :
    Option EvalResult :=
  match src with
  | none => if b.nilGuard then some ⟨none, 0⟩ else none
  | some s =>
    match evalStmts conv s [] b.stmts with
    | none => none
    | some (env, k1) =>
      match evalDict conv s env b.dict with
      | none => none
      | some (out, k2) => some ⟨some out, k1 + k2⟩

/-- Have both conversion functions of `n` already been emitted? -/
def seenBothConvs (seen : List Event) (n : String) : Bool :=
  seen.contains (Event.emitFromPB n) && seen.contains (Event.emitToPB n)

def visitedOnlyAfterConvsAux : List Event → List Event → Bool
  | _, [] => true
  | seen, e :: rest =>
    match e with
    | Event.setVisited n false =>
      seenBothConvs seen n && visitedOnlyAfterConvsAux (seen ++ [e]) rest
    | _ => visitedOnlyAfterConvsAux (seen ++ [e]) rest

/-- The temporal property claimed by C2, as a check over a run's event trace:
every false-to-true `Visited` transition happens only after both of that
struct's conversion functions have been fully emitted. -/
def visitedOnlyAfterConvs (evs : List Event) : Bool :=
  visitedOnlyAfterConvsAux [] evs

/-- Names of the emitted units, in emission order. -/
def unitNames (us : List GeneratedUnit) : List String := us.map (fun u => u.typeName)

/-- Every struct field name an emitted conversion function references: loop
sources, dictionary keys (target fields) and dictionary source-field reads. -/
def bindingFieldRefs (b : Binding) : List String :=
  (b.stmts.map (fun st =>
    match st with
    | ConvStmt.mapLoop f _ _ => f
    | ConvStmt.sliceLoop f _ => f)) ++
  b.dict.map Prod.fst ++
  b.dict.filterMap (fun p =>
    match p.2 with
    | AssignExpr.srcField f => some f
    | AssignExpr.convCall _ f => some f
    | AssignExpr.varRef _ => none)

/-- Well-formedness of an emitted unit, true by construction of
`genDTORecursive`: its bindings are exactly the two synthesized ones for its
classified field list, and neither the DTO fields nor the classified field
list mention a pb-native field name. -/
def UnitOK (u : GeneratedUnit) : Prop :=
  u.fromPB = genBindingFromPB u.typeName u.fieldStates ∧
  u.toPB = genBindingToPB u.typeName u.fieldStates ∧
  (∀ df ∈ u.dtoFields, pbNativeMem df.name = false) ∧
  (∀ p ∈ u.fieldStates, pbNativeMem p.1 = false)

/-- Semantics of the emitted `make`/`append` sequence block applied to one
source field value: a source slice of any capacity becomes a fresh slice of
capacity and length equal to the source length with every element converted in
source order; a nil source slice becomes a fresh empty slice. -/
def convertedSlice (conv : String → GoVal → GoVal) (cf : String) : GoVal → Option GoVal
  | GoVal.sliceV _ xs => some (GoVal.sliceV xs.length (xs.map (conv cf)))
  | GoVal.nilSliceV => some (GoVal.sliceV 0 [])
  | _ => none

/-- No DTO field, classified field, or conversion-function reference of unit
`u` mentions the field name `f`. -/
def unitAvoidsField (u : GeneratedUnit) (f : String) : Bool :=
  u.dtoFields.all (fun df => !(df.name == f)) &&
  u.fieldStates.all (fun p => !(p.1 == f)) &&
  (bindingFieldRefs u.fromPB).all (fun g => !(g == f)) &&
  (bindingFieldRefs u.toPB).all (fun g => !(g == f))

/-- A small concrete schema used by the witnesses: a root request struct with
a sequence-of-struct field, a pb-native bookkeeping field, and a referenced
child struct. -/
def sampleSchema : List Struct :=
  [⟨"Item", [⟨"Label", "string"⟩]⟩,
   ⟨"EnvelopeRequest", [⟨"Items", "[]*Item"⟩, ⟨"state", "impl.MessageState"⟩]⟩]

def sampleRun : Option (List GeneratedUnit × List Event) := Generate sampleSchema "" 3

def sampleUnits : List GeneratedUnit := (sampleRun.map Prod.fst).getD []

def sampleEvents : List Event := (sampleRun.map Prod.snd).getD []

def dummyUnit : GeneratedUnit :=
  ⟨"", [], [], genBindingFromPB "" [], genBindingToPB "" []⟩

/-- The `EnvelopeRequest` unit of the sample run (the second emitted unit). -/
def sampleEnvUnit : GeneratedUnit := sampleUnits.getD 1 dummyUnit

/-- The classified shape of the sample's `Items` field. -/
def sampleSliceState : FieldState := ⟨"Item", true, false, "", true⟩

/-- An identity element converter used to instantiate evaluator witnesses. -/
def convId : String → GoVal → GoVal := fun _ v => v

/-- A rank certificate for `sampleSchema`: `Item` below `EnvelopeRequest`. -/
def sampleRanks : List (String × Nat) := [("Item", 0), ("EnvelopeRequest", 1)]

/-- The root struct of `sampleSchema`. -/
def envStruct : Struct :=
  ⟨"EnvelopeRequest", [⟨"Items", "[]*Item"⟩, ⟨"state", "impl.MessageState"⟩]⟩

/-- Result of one recursive visit of `envStruct` from the fresh manifest. -/
def sampleGenOut : GenOut :=
  (genDTORecursive 3 envStruct (buildManifest sampleSchema)).getD ⟨[], [], []⟩

/-- A source struct value whose `Items` slice is allocated but empty. -/
def c8SrcRec : GoRec := [("Items", GoVal.sliceV 5 [])]

/-- The struct names referenced by an emitted unit's struct-typed fields. -/
def structRefsOfUnit (u : GeneratedUnit) : List String :=
  u.fieldStates.filterMap (fun p => if p.2.IsStructType then some p.2.TypeName else none)

/-- The four events a struct's own emission produces, in source order
(lines 209-213): type definition, visited transition, then both bindings. -/
def eventBlock (n : String) : List Event :=
  [Event.emitType n, Event.setVisited n false, Event.emitFromPB n, Event.emitToPB n]

/-- Manifest well-formedness: every entry is keyed by its struct's name
(guaranteed by `buildManifest`). -/
def WFm (m : Manifest) : Prop :=
  ∀ n ss, mLookup m n = some ss → ss.Struct.name = n

/-- A rank function witnessing acyclicity of the manifest's struct-reference
graph: every struct-typed field edge strictly decreases the rank. -/
def RankOK (rank : String → Nat) (m : Manifest) : Prop :=
  ∀ n ss, mLookup m n = some ss → ∀ v ∈ ss.Struct.vars, pbNativeMem v.name = false →
    ∀ ft isSl isMp mk, parseFieldType v.type = some (ft, isSl, isMp, mk) →
      (mLookup m ft).isSome = true → rank ft < rank n

/-- Finite-representation rank lookup (default 0). -/
def rankOf (ranks : List (String × Nat)) (n : String) : Nat :=
  match ranks with
  | [] => 0
  | (k, r) :: rest => if k = n then r else rankOf rest n

/-- Decidable schema-level acyclicity certificate: `ranks` assigns every
struct a rank that strictly decreases along every struct-typed field edge. -/
def SchemaRankedB (schema : List Struct) (ranks : List (String × Nat)) : Bool :=
  schema.all (fun s => s.vars.all (fun v =>
    if pbNativeMem v.name then true
    else
      match parseFieldType v.type with
      | none => true
      | some (ft, _, _, _) =>
        if decide (ft ∈ schema.map (fun t => t.name)) then
          decide (rankOf ranks ft < rankOf ranks s.name)
        else true))

/-- The struct-reference graph of the schema is acyclic (standard finite-graph
characterization: a rank function strictly decreasing along edges exists). -/
def SchemaAcyclic (schema : List Struct) : Prop :=
  ∃ ranks : List (String × Nat), SchemaRankedB schema ranks = true

/-- The output sequence is topologically ordered: every struct-typed reference
of the unit at index `i` names a unit occurring strictly earlier. -/
def TopoOrdered (units : List GeneratedUnit) : Prop :=
  ∀ (i : Nat) (h : i < units.length),
    ∀ r ∈ structRefsOfUnit (units.get ⟨i, h⟩), r ∈ unitNames (units.take i)

/-- Postcondition of one successful `genDTORecursive` call on the struct named
`sname` from manifest `m` under the rank certificate. -/
structure GenPost (rank : String → Nat) (sname : String) (m : Manifest) (out : GenOut) :
    Prop where
  pres : ∀ n, (mLookup out.manifest n).map (fun e => e.Struct) =
    (mLookup m n).map (fun e => e.Struct)
  visitedChar : ∀ n, isVisited out.manifest n = true ↔
    (isVisited m n = true ∨ n ∈ unitNames out.units)
  fresh : ∀ n ∈ unitNames out.units, isVisited m n = false
  nodup : (unitNames out.units).Nodup
  rankBound : ∀ n ∈ unitNames out.units, rank n ≤ rank sname
  topo : ∀ u ∈ out.units, ∀ r ∈ structRefsOfUnit u,
    isVisited m r = true ∨
      ∃ pre post, out.units = pre ++ u :: post ∧ r ∈ unitNames pre
  selfMem : isVisited m sname = false → sname ∈ unitNames out.units
  blocks : ∀ n ∈ unitNames out.units, ∃ pre post, out.events = pre ++ eventBlock n ++ post
  evCount : ∀ n, out.events.count (Event.setVisited n false) = (unitNames out.units).count n

/-- Postcondition of the field loop from manifest `m` with every recursive
child bounded strictly below `B`. -/
structure FieldsPost (rank : String → Nat) (B : Nat) (m : Manifest) (out : FieldLoopOut) :
    Prop where
  pres : ∀ n, (mLookup out.manifest n).map (fun e => e.Struct) =
    (mLookup m n).map (fun e => e.Struct)
  visitedChar : ∀ n, isVisited out.manifest n = true ↔
    (isVisited m n = true ∨ n ∈ unitNames out.units)
  fresh : ∀ n ∈ unitNames out.units, isVisited m n = false
  nodup : (unitNames out.units).Nodup
  rankBound : ∀ n ∈ unitNames out.units, rank n < B
  topo : ∀ u ∈ out.units, ∀ r ∈ structRefsOfUnit u,
    isVisited m r = true ∨
      ∃ pre post, out.units = pre ++ u :: post ∧ r ∈ unitNames pre
  refsCovered : ∀ p ∈ out.fieldManifest, p.2.IsStructType = true →
    isVisited out.manifest p.2.TypeName = true
  blocks : ∀ n ∈ unitNames out.units, ∃ pre post, out.events = pre ++ eventBlock n ++ post
  evCount : ∀ n, out.events.count (Event.setVisited n false) = (unitNames out.units).count n

/-- Postcondition of the root loop of `Generate`. -/
structure LoopPost (m : Manifest) (out : GenOut) : Prop where
  pres : ∀ n, (mLookup out.manifest n).map (fun e => e.Struct) =
    (mLookup m n).map (fun e => e.Struct)
  visitedChar : ∀ n, isVisited out.manifest n = true ↔
    (isVisited m n = true ∨ n ∈ unitNames out.units)
  fresh : ∀ n ∈ unitNames out.units, isVisited m n = false
  nodup : (unitNames out.units).Nodup
  topo : ∀ u ∈ out.units, ∀ r ∈ structRefsOfUnit u,
    isVisited m r = true ∨
      ∃ pre post, out.units = pre ++ u :: post ∧ r ∈ unitNames pre
  blocks : ∀ n ∈ unitNames out.units, ∃ pre post, out.events = pre ++ eventBlock n ++ post
  evCount : ∀ n, out.events.count (Event.setVisited n false) = (unitNames out.units).count n

theorem isPrefixOfL_subset {p l : List Char} (h : isPrefixOfL p l = true) :
    ∀ c ∈ p, c ∈ l := by
  induction p generalizing l with
  | nil => intro c hc; cases hc
  | cons a as ih =>
    cases l with
    | nil => simp [isPrefixOfL] at h
    | cons x xs =>
      simp only [isPrefixOfL, Bool.and_eq_true, beq_iff_eq] at h
      intro c hc
      rcases List.mem_cons.mp hc with rfl | hc
      · exact h.1 ▸ List.mem_cons_self _ _
      · exact List.mem_cons_of_mem _ (ih h.2 c hc)

theorem containsSub_subset {p l : List Char} (h : containsSub p l = true) :
    ∀ c ∈ p, c ∈ l := by
  induction l with
  | nil =>
    intro c hc
    simp only [containsSub, List.isEmpty_iff] at h
    subst h; cases hc
  | cons x xs ih =>
    simp only [containsSub, Bool.or_eq_true] at h
    intro c hc
    rcases h with h | h
    · exact isPrefixOfL_subset h c hc
    · exact List.mem_cons_of_mem _ (ih h c hc)

theorem splitOnRB_ne_nil (l : List Char) : splitOnRB l ≠ [] := by
  cases l with
  | nil => simp [splitOnRB]
  | cons c cs =>
    simp only [splitOnRB]
    split
    · simp
    · split <;> simp

theorem splitOnRB_two {l : List Char} (h : ']' ∈ l) :
    ∃ a b t, splitOnRB l = a :: b :: t := by
  induction l with
  | nil => cases h
  | cons c cs ih =>
    by_cases hc : c = ']'
    · subst hc
      rcases hr : splitOnRB cs with _ | ⟨b, t⟩
      · exact absurd hr (splitOnRB_ne_nil cs)
      · exact ⟨[], b, t, by simp [splitOnRB, hr]⟩
    · have hcs : ']' ∈ cs := by
        rcases List.mem_cons.mp h with h' | h'
        · exact absurd h'.symm hc
        · exact h'
      rcases ih hcs with ⟨a, b, t, hr⟩
      exact ⟨c :: a, b, t, by simp [splitOnRB, hc, hr]⟩

/-- C10: a raw field type string containing both the sequence marker `[]` and
the associative marker `map[` is classified by `parseFieldType` as a sequence:
`isSlice = true`, `isMap = false`, and an empty map key type, because the
slice check runs before the map check. -/
theorem c10_slice_precedence (t : String)
    (hs : fieldIsASlice t = true) (hm : fieldIsAMap t = true) :
    ∃ n, parseFieldType t = some (n, true, false, "") := by
  have hrb : ']' ∈ t.data :=
    containsSub_subset hs ']' (by decide)
  rcases splitOnRB_two hrb with ⟨a, b, tl, hsplit⟩
  refine ⟨trimStar (String.mk b), ?_⟩
  simp [parseFieldType, hs, hsplit]

/-- C10 witness: the nested-collection type string `[]map[string]Foo` contains
both markers and is classified as a slice with empty key type. -/
theorem c10_slice_precedence_witness :
    fieldIsASlice "[]map[string]Foo" = true ∧ fieldIsAMap "[]map[string]Foo" = true ∧
      ∃ n, parseFieldType "[]map[string]Foo" = some (n, true, false, "") :=
  ⟨by decide, by decide, c10_slice_precedence _ (by decide) (by decide)⟩

/-- C9: a raw field type string taken down the associative branch (it contains
`map[`, does not contain `[]`) whose bracket syntax is malformed — the regex
`\\[([^\\[\\]]*)\\]` finds no matching bracket pair — makes classification
fail loudly (`none`, modelling the Go panic in `getBetweenBrackets` /
`parts[1]`) rather than return a shape with an empty key type, and the failure
is fatal for a generation run that reaches such a field. -/
theorem c9_malformed_map_fatal (t : String)
    (hm : fieldIsAMap t = true) (hs : fieldIsASlice t = false)
    (hb : firstBracketPair t.data = none) :
    parseFieldType t = none ∧
      ∀ (fuel : Nat) (structName fieldName : String),
        pbNativeMem fieldName = false →
        strEndsWith structName "Request" = true →
        Generate [⟨structName, [⟨fieldName, t⟩]⟩] "" fuel = none := by
  have hparse : parseFieldType t = none := by
    rcases hsplit : splitOnRB t.data with _ | ⟨a, rest⟩
    · simp [parseFieldType, hm, hs, hsplit]
    · rcases rest with _ | ⟨b, tl⟩
      · simp [parseFieldType, hm, hs, hsplit]
      · simp [parseFieldType, hm, hs, hsplit, getBetweenBrackets, hb]
  refine ⟨hparse, ?_⟩
  intro fuel structName fieldName hnat hreq
  have hmani : buildManifest [⟨structName, [⟨fieldName, t⟩]⟩] =
      [(structName, ⟨⟨structName, [⟨fieldName, t⟩]⟩, false⟩)] := by
    simp [buildManifest, mInsert]
  cases fuel with
  | zero =>
    simp [Generate, genLoop, hreq, hmani, genDTORecursive]
  | succ fuel =>
    simp [Generate, genLoop, hreq, hmani, genDTORecursive, mLookup, genFields, hnat, hparse]

/-- C9 witness: `map[string` has an associative marker, no sequence marker and
no matching closing bracket; classification and a run over a struct holding
such a field both fail. -/
theorem c9_malformed_map_fatal_witness :
    fieldIsAMap "map[string" = true ∧ fieldIsASlice "map[string" = false ∧
      firstBracketPair "map[string".data = none ∧
      parseFieldType "map[string" = none ∧
      Generate [⟨"PingRequest", [⟨"Payload", "map[string"⟩]⟩] "" 9 = none :=
  ⟨by decide, by decide, by decide,
    (c9_malformed_map_fatal _ (by decide) (by decide) (by decide)).1,
    (c9_malformed_map_fatal _ (by decide) (by decide) (by decide)).2 9 "PingRequest" "Payload"
      (by decide) (by decide)⟩

theorem genLoop_all_skipped (fuel : Nat) (target : String) (hne : target ≠ "") :
    ∀ (structs : List Struct) (m : Manifest), (∀ s ∈ structs, s.name ≠ target) →
      genLoop fuel target structs m = some ⟨m, [], []⟩ := by
  intro structs
  induction structs with
  | nil => intro m _; rfl
  | cons s rest ih =>
    intro m habs
    have hsel : (s.name == target) = false :=
      beq_false_of_ne (habs s (List.mem_cons_self _ _))
    simp only [genLoop, hne, hsel, ne_eq, not_false_iff, if_true, if_false, ite_self,
      Bool.false_eq_true]
    simpa using ih m (fun s' hs' => habs s' (List.mem_cons_of_mem _ hs'))

/-- C1 counterexample: the schema contains only `Ping`, the explicitly
requested root `Missing` is absent, yet `Generate` succeeds and writes a
header-only output file (no units) instead of terminating with an error. -/
theorem c1_missing_target_counterexample :
    Generate [⟨"Ping", []⟩] "Missing" 1 = some ([], []) ∧
      (([⟨"Ping", []⟩] : List Struct).map (fun s => s.name)).contains "Missing" = false :=
  ⟨by decide, by decide⟩

/-- C1 amended: an explicitly requested root struct name absent from the
schema is not an error — every struct is skipped and generation completes
successfully, writing a header-only output file with no generated units. -/
theorem c1_missing_target_amended (schema : List Struct) (target : String) (fuel : Nat)
    (hne : target ≠ "") (habs : ∀ s ∈ schema, s.name ≠ target) :
    Generate schema target fuel = some ([], []) := by
  unfold Generate
  rw [genLoop_all_skipped fuel target hne schema (buildManifest schema) habs]
  rfl

/-- C1 amended witness: requesting `Missing` against the one-struct schema
`Ping`. -/
theorem c1_missing_target_amended_witness :
    ("Missing" ≠ "") ∧ Generate [⟨"Ping", []⟩] "Missing" 7 = some ([], []) :=
  ⟨by decide, c1_missing_target_amended _ _ 7 (by decide)
    (by intro s hs; simp at hs; subst hs; decide)⟩

theorem mLookup_mInsert (m : Manifest) (k : String) (ss : StructState) (n : String) :
    mLookup (mInsert m k ss) n = if k = n then some ss else mLookup m n := by
  induction m with
  | nil => simp [mInsert, mLookup]
  | cons p rest ih =>
    by_cases hk : p.1 = k
    · subst hk
      by_cases hn : p.1 = n <;> simp [mInsert, mLookup, hn, ih]
    · by_cases hn : p.1 = n
      · subst hn
        have : k ≠ p.1 := fun h => hk h.symm
        simp [mInsert, mLookup, hk, this]
      · simp [mInsert, mLookup, hk, hn, ih]

theorem mLookup_foldl_build (schema : List Struct) :
    ∀ (m : Manifest) (n : String),
      mLookup (schema.foldl (fun m s => mInsert m s.name ⟨s, false⟩) m) n =
        match schema.reverse.find? (fun s => s.name == n) with
        | some s => some ⟨s, false⟩
        | none => mLookup m n := by
  induction schema with
  | nil => intro m n; rfl
  | cons s rest ih =>
    intro m n
    simp only [List.foldl_cons, List.reverse_cons, List.find?_append]
    rw [ih]
    cases hr : rest.reverse.find? (fun s => s.name == n) with
    | some s' => simp [hr]
    | none =>
      by_cases hn : s.name = n
      · simp [hr, List.find?, hn, mLookup_mInsert]
      · have : (s.name == n) = false := beq_false_of_ne hn
        simp [hr, List.find?, this, mLookup_mInsert, hn]

theorem mInsert_keys (m : Manifest) (k : String) (ss : StructState) :
    (mInsert m k ss).map Prod.fst =
      if k ∈ m.map Prod.fst then m.map Prod.fst else m.map Prod.fst ++ [k] := by
  induction m with
  | nil => simp [mInsert]
  | cons p rest ih =>
    by_cases hk : p.1 = k
    · subst hk; simp [mInsert]
    · have : k ≠ p.1 := fun h => hk h.symm
      by_cases hmem : k ∈ rest.map Prod.fst <;>
        simp [mInsert, hk, ih, hmem, this]

theorem buildManifest_keys_nodup (schema : List Struct) :
    ((buildManifest schema).map Prod.fst).Nodup := by
  suffices h : ∀ (m : Manifest), (m.map Prod.fst).Nodup →
      ((schema.foldl (fun m s => mInsert m s.name ⟨s, false⟩) m).map Prod.fst).Nodup by
    exact h [] (by simp)
  induction schema with
  | nil => intro m hm; exact hm
  | cons s rest ih =>
    intro m hm
    simp only [List.foldl_cons]
    refine ih _ ?_
    rw [mInsert_keys]
    by_cases hmem : s.name ∈ m.map Prod.fst
    · simpa [hmem] using hm
    · simp only [hmem, if_false]
      exact List.Nodup.append hm (List.nodup_singleton _)
        (by simpa [List.disjoint_singleton] using hmem)

/-- C5 counterexample: a schema defining `DupRequest` twice is not rejected —
the registry keeps a single (overwritten) entry holding the second definition
and generation proceeds to a successful write. -/
theorem c5_duplicate_names_counterexample :
    (Generate [⟨"DupRequest", [⟨"A", "string"⟩]⟩, ⟨"DupRequest", [⟨"B", "string"⟩]⟩]
        "" 3).isSome = true ∧
      ¬ (([⟨"DupRequest", [⟨"A", "string"⟩]⟩, ⟨"DupRequest", [⟨"B", "string"⟩]⟩] :
            List Struct).map (fun s => s.name)).Nodup ∧
      mLookup (buildManifest
          [⟨"DupRequest", [⟨"A", "string"⟩]⟩, ⟨"DupRequest", [⟨"B", "string"⟩]⟩])
          "DupRequest" = some ⟨⟨"DupRequest", [⟨"B", "string"⟩]⟩, false⟩ :=
  ⟨by decide, by decide, by decide⟩

/-- C5 amended: duplicate struct names in the schema are not a fatal input
error; building the registry silently keeps exactly one entry per name — the
last definition in schema order wins — and generation proceeds. -/
theorem c5_duplicate_names_amended (schema : List Struct) (n : String) :
    mLookup (buildManifest schema) n =
      (schema.reverse.find? (fun s => s.name == n)).map (fun s => (⟨s, false⟩ : StructState)) ∧
      ((buildManifest schema).map Prod.fst).Nodup := by
  constructor
  · rw [buildManifest, mLookup_foldl_build]
    cases schema.reverse.find? (fun s => s.name == n) <;> simp [mLookup]
  · exact buildManifest_keys_nodup schema

/-- C2 counterexample: in the run over the one-struct schema `PingRequest`, the
`Visited` flag flips to `true` (index 1 of the trace) right after the DTO type
is appended and before either conversion function is emitted (indices 2 and
3), so the transition does not happen "only after the struct's DTO type
definition and both of its conversion functions have been fully emitted". -/
theorem c2_visited_timing_counterexample :
    (Generate [⟨"PingRequest", []⟩] "" 1).map Prod.snd =
      some [Event.emitType "PingRequest", Event.setVisited "PingRequest" false,
            Event.emitFromPB "PingRequest", Event.emitToPB "PingRequest"] ∧
      visitedOnlyAfterConvs
        [Event.emitType "PingRequest", Event.setVisited "PingRequest" false,
         Event.emitFromPB "PingRequest", Event.emitToPB "PingRequest"] = false :=
  ⟨by decide, by decide⟩

theorem genFields_unitsOK (g : Struct → Manifest → Option GenOut)
    (hg : ∀ s m out, g s m = some out → ∀ u ∈ out.units, UnitOK u) :
    ∀ (vs : List Var) (m : Manifest) (out : FieldLoopOut),
      genFields g vs m = some out →
      (∀ u ∈ out.units, UnitOK u) ∧
      (∀ p ∈ out.fieldManifest, pbNativeMem p.1 = false) ∧
      (∀ df ∈ out.dtoFields, pbNativeMem df.name = false) := by
  intro vs
  induction vs with
  | nil =>
    intro m out hout
    simp only [genFields, Option.some_inj] at hout
    subst hout
    refine ⟨?_, ?_, ?_⟩ <;> intro x hx <;> cases hx
  | cons v vs ih =>
    intro m out hout
    by_cases hnat : pbNativeMem v.name
    · simp only [genFields, hnat, if_true] at hout
      exact ih m out hout
    · simp only [genFields, hnat, Bool.false_eq_true, if_false] at hout
      cases hp : parseFieldType v.type with
      | none => rw [hp] at hout; cases hout
      | some pr =>
        obtain ⟨ft, isSl, isMp, mk⟩ := pr
        rw [hp] at hout
        simp only at hout
        cases hl : mLookup m ft with
        | none =>
          rw [hl] at hout
          simp only at hout
          cases hrest : genFields g vs m with
          | none => rw [hrest] at hout; cases hout
          | some rest =>
            rw [hrest] at hout
            simp only [Option.some_inj] at hout
            subst hout
            obtain ⟨hu, hfm, hdf⟩ := ih m rest hrest
            refine ⟨hu, ?_, ?_⟩
            · intro p hp'
              rcases List.mem_cons.mp hp' with rfl | hp'
              · simpa using hnat
              · exact hfm p hp'
            · intro df hdf'
              rcases List.mem_cons.mp hdf' with rfl | hdf'
              · simpa using hnat
              · exact hdf df hdf'
        | some ss =>
          rw [hl] at hout
          simp only at hout
          by_cases hv : ss.Visited
          · rw [if_pos hv] at hout
            cases hrest : genFields g vs m with
            | none => rw [hrest] at hout; cases hout
            | some rest =>
              rw [hrest] at hout
              simp only [Option.some_inj] at hout
              subst hout
              obtain ⟨hu, hfm, hdf⟩ := ih m rest hrest
              refine ⟨hu, ?_, ?_⟩
              · intro p hp'
                rcases List.mem_cons.mp hp' with rfl | hp'
                · simpa using hnat
                · exact hfm p hp'
              · intro df hdf'
                rcases List.mem_cons.mp hdf' with rfl | hdf'
                · simpa using hnat
                · exact hdf df hdf'
          · rw [if_neg hv] at hout
            cases hchild : g ss.Struct m with
            | none => rw [hchild] at hout; cases hout
            | some child =>
              rw [hchild] at hout
              simp only at hout
              cases hl1 : mLookup child.manifest ft with
              | none => rw [hl1] at hout; cases hout
              | some ss1 =>
                rw [hl1] at hout
                simp only at hout
                cases hrest : genFields g vs (mSetVisited child.manifest ft) with
                | none => rw [hrest] at hout; cases hout
                | some rest =>
                  rw [hrest] at hout
                  simp only [Option.some_inj] at hout
                  subst hout
                  obtain ⟨hu, hfm, hdf⟩ := ih _ rest hrest
                  refine ⟨?_, ?_, ?_⟩
                  · intro u hu'
                    rcases List.mem_append.mp hu' with hu' | hu'
                    · exact hg ss.Struct m child hchild u hu'
                    · exact hu u hu'
                  · intro p hp'
                    rcases List.mem_cons.mp hp' with rfl | hp'
                    · simpa using hnat
                    · exact hfm p hp'
                  · intro df hdf'
                    rcases List.mem_cons.mp hdf' with rfl | hdf'
                    · simpa using hnat
                    · exact hdf df hdf'

theorem genDTORecursive_unitsOK :
    ∀ (fuel : Nat) (s : Struct) (m : Manifest) (out : GenOut),
      genDTORecursive fuel s m = some out → ∀ u ∈ out.units, UnitOK u := by
  intro fuel
  induction fuel with
  | zero => intro s m out hout; cases hout
  | succ fuel ih =>
    intro s m out hout
    simp only [genDTORecursive] at hout
    cases hl : mLookup m s.name with
    | none => rw [hl] at hout; cases hout
    | some ss =>
      rw [hl] at hout
      simp only at hout
      by_cases hv : ss.Visited
      · rw [if_pos hv] at hout
        simp only [Option.some_inj] at hout
        subst hout
        intro u hu; cases hu
      · rw [if_neg hv] at hout
        cases hfl : genFields (genDTORecursive fuel) s.vars m with
        | none => rw [hfl] at hout; cases hout
        | some fl =>
          rw [hfl] at hout
          simp only at hout
          cases hl1 : mLookup fl.manifest s.name with
          | none => rw [hl1] at hout; cases hout
          | some ss1 =>
            rw [hl1] at hout
            simp only [Option.some_inj] at hout
            subst hout
            obtain ⟨hu, hfm, hdf⟩ :=
              genFields_unitsOK (genDTORecursive fuel) ih s.vars m fl hfl
            intro u hu'
            simp only [GenOut.units] at hu'
            rcases List.mem_append.mp hu' with hu' | hu'
            · exact hu u hu'
            · rcases List.mem_singleton.mp hu' with rfl
              exact ⟨rfl, rfl, hdf, hfm⟩

theorem genLoop_unitsOK (fuel : Nat) (target : String) :
    ∀ (structs : List Struct) (m : Manifest) (out : GenOut),
      genLoop fuel target structs m = some out → ∀ u ∈ out.units, UnitOK u := by
  intro structs
  induction structs with
  | nil =>
    intro m out hout
    simp only [genLoop, Option.some_inj] at hout
    subst hout
    intro u hu; cases hu
  | cons s rest ih =>
    intro m out hout
    simp only [genLoop] at hout
    by_cases hsel : (if target ≠ "" then s.name == target
        else strEndsWith s.name "Request" || strEndsWith s.name "Response") = true
    · rw [if_pos hsel] at hout
      cases hone : genDTORecursive fuel s m with
      | none => rw [hone] at hout; cases hout
      | some one =>
        rw [hone] at hout
        simp only at hout
        cases htwo : genLoop fuel target rest one.manifest with
        | none => rw [htwo] at hout; cases hout
        | some two =>
          rw [htwo] at hout
          simp only [Option.some_inj] at hout
          subst hout
          intro u hu
          rcases List.mem_append.mp hu with hu | hu
          · exact genDTORecursive_unitsOK fuel s m one hone u hu
          · exact ih one.manifest two htwo u hu
    · rw [if_neg hsel] at hout
      exact ih m out hout

theorem generate_unitsOK (schema : List Struct) (target : String) (fuel : Nat)
    (units : List GeneratedUnit) (evs : List Event)
    (hrun : Generate schema target fuel = some (units, evs)) :
    ∀ u ∈ units, UnitOK u := by
  unfold Generate at hrun
  cases hloop : genLoop fuel target schema (buildManifest schema) with
  | none => rw [hloop] at hrun; cases hrun
  | some out =>
    rw [hloop] at hrun
    have hpair : (out.units, out.events) = (units, evs) := Option.some.inj hrun
    have : out.units = units := congrArg Prod.fst hpair
    subst this
    exact genLoop_unitsOK fuel target schema (buildManifest schema) out hloop

theorem recLookup_append_left {env : GoRec} {x : String} {v : GoVal}
    (h : recLookup env x = some v) (l : GoRec) : recLookup (env ++ l) x = some v := by
  induction env with
  | nil => cases h
  | cons p rest ih =>
    by_cases hx : p.1 = x
    · simpa [recLookup, hx] using h
    · simp only [recLookup, hx, if_false] at h ⊢
      exact ih h

theorem recLookup_append_one {env : GoRec} {x : String}
    (h : recLookup env x = none) (v : GoVal) :
    recLookup (env ++ [(x, v)]) x = some v := by
  induction env with
  | nil => simp [recLookup]
  | cons p rest ih =>
    by_cases hx : p.1 = x
    · simp [recLookup, hx] at h
    · simp only [recLookup, hx, if_false] at h ⊢
      exact ih h

theorem recLookup_append_ne {env : GoRec} {x nm : String} (hne : nm ≠ x) (v : GoVal) :
    recLookup (env ++ [(nm, v)]) x = recLookup env x := by
  induction env with
  | nil => simp [recLookup, hne]
  | cons p rest ih =>
    by_cases hx : p.1 = x
    · simp [recLookup, hx]
    · simp only [recLookup, hx, if_false]
      exact ih

theorem evalStmts_preserves {conv : String → GoVal → GoVal} {src : GoRec} :
    ∀ {stmts : List ConvStmt} {env env' : GoRec} {k : Nat} {x : String} {v : GoVal},
      evalStmts conv src env stmts = some (env', k) →
      recLookup env x = some v → recLookup env' x = some v := by
  intro stmts
  induction stmts with
  | nil =>
    intro env env' k x v h hx
    simp only [evalStmts, Option.some_inj, Prod.mk.injEq] at h
    exact h.1 ▸ hx
  | cons st rest ih =>
    intro env env' k x v h hx
    cases st with
    | mapLoop f cf kt =>
      simp only [evalStmts] at h
      cases hm : recLookup env "m" with
      | some _ => rw [hm] at h; cases h
      | none =>
        rw [hm] at h
        cases hsrc : recLookup src f with
        | none => rw [hsrc] at h; cases h
        | some gv =>
          rw [hsrc] at h
          cases gv with
          | mapV prs =>
            simp only at h
            cases hr : evalStmts conv src
                (env ++ [("m", GoVal.mapV (prs.map (fun p => (p.1, conv cf p.2))))]) rest with
            | none => rw [hr] at h; cases h
            | some r =>
              rw [hr] at h
              have heq := Option.some.inj h
              have henv : r.1 = env' := congrArg Prod.fst heq
              exact henv ▸ ih hr (recLookup_append_left hx _)
          | prim s => simp at h
          | sliceV c es => simp at h
          | nilSliceV => simp at h
    | sliceLoop f cf =>
      simp only [evalStmts] at h
      cases hm : recLookup env "aSlice" with
      | some _ => rw [hm] at h; cases h
      | none =>
        rw [hm] at h
        cases hsrc : recLookup src f with
        | none => rw [hsrc] at h; cases h
        | some gv =>
          rw [hsrc] at h
          cases gv with
          | sliceV c es =>
            simp only at h
            cases hr : evalStmts conv src
                (env ++ [("aSlice", GoVal.sliceV es.length (es.map (conv cf)))]) rest with
            | none => rw [hr] at h; cases h
            | some r =>
              rw [hr] at h
              have heq := Option.some.inj h
              have henv : r.1 = env' := congrArg Prod.fst heq
              exact henv ▸ ih hr (recLookup_append_left hx _)
          | nilSliceV =>
            simp only at h
            cases hr : evalStmts conv src (env ++ [("aSlice", GoVal.sliceV 0 [])]) rest with
            | none => rw [hr] at h; cases h
            | some r =>
              rw [hr] at h
              have heq := Option.some.inj h
              have henv : r.1 = env' := congrArg Prod.fst heq
              exact henv ▸ ih hr (recLookup_append_left hx _)
          | prim s => simp at h
          | mapV prs => simp at h

theorem evalStmts_no_sliceLoop {conv : String → GoVal → GoVal} {src : GoRec} :
    ∀ {stmts : List ConvStmt} {env env' : GoRec} {k : Nat} {v : GoVal},
      evalStmts conv src env stmts = some (env', k) →
      recLookup env "aSlice" = some v →
      ∀ fn cf, ConvStmt.sliceLoop fn cf ∉ stmts := by
  intro stmts
  induction stmts with
  | nil => intro _ _ _ _ _ _ fn cf hmem; cases hmem
  | cons st rest ih =>
    intro env env' k v h ha fn cf hmem
    cases st with
    | mapLoop f cf' kt =>
      simp only [evalStmts] at h
      cases hm : recLookup env "m" with
      | some _ => rw [hm] at h; cases h
      | none =>
        rw [hm] at h
        cases hsrc : recLookup src f with
        | none => rw [hsrc] at h; cases h
        | some gv =>
          rw [hsrc] at h
          cases gv with
          | mapV prs =>
            simp only at h
            cases hr : evalStmts conv src
                (env ++ [("m", GoVal.mapV (prs.map (fun p => (p.1, conv cf' p.2))))]) rest with
            | none => rw [hr] at h; cases h
            | some r =>
              have ha1 : recLookup
                  (env ++ [("m", GoVal.mapV (prs.map (fun p => (p.1, conv cf' p.2))))])
                  "aSlice" = some v := by
                rw [recLookup_append_ne (by decide) _]; exact ha
              rcases List.mem_cons.mp hmem with heq | hmem'
              · cases heq
              · exact ih hr ha1 fn cf hmem'
          | prim s => simp at h
          | sliceV c es => simp at h
          | nilSliceV => simp at h
    | sliceLoop f cf' =>
      simp only [evalStmts, ha] at h
      cases h

theorem evalStmts_sliceLoop_sound {conv : String → GoVal → GoVal} {src : GoRec} :
    ∀ {stmts : List ConvStmt} {env env' : GoRec} {k : Nat} {fn cf : String}
      {gv w : GoVal},
      evalStmts conv src env stmts = some (env', k) →
      recLookup env "aSlice" = none →
      ConvStmt.sliceLoop fn cf ∈ stmts →
      recLookup src fn = some gv →
      convertedSlice conv cf gv = some w →
      recLookup env' "aSlice" = some w := by
  intro stmts
  induction stmts with
  | nil => intro _ _ _ _ _ _ _ _ _ hmem; cases hmem
  | cons st rest ih =>
    intro env env' k fn cf gv w h ha hmem hsrc hconv
    cases st with
    | mapLoop f cf' kt =>
      simp only [evalStmts] at h
      cases hm : recLookup env "m" with
      | some _ => rw [hm] at h; cases h
      | none =>
        rw [hm] at h
        cases hsrc' : recLookup src f with
        | none => rw [hsrc'] at h; cases h
        | some gv' =>
          rw [hsrc'] at h
          cases gv' with
          | mapV prs =>
            simp only at h
            cases hr : evalStmts conv src
                (env ++ [("m", GoVal.mapV (prs.map (fun p => (p.1, conv cf' p.2))))]) rest with
            | none => rw [hr] at h; cases h
            | some r =>
              rw [hr] at h
              have heq := Option.some.inj h
              have henv : r.1 = env' := congrArg Prod.fst heq
              have ha1 : recLookup
                  (env ++ [("m", GoVal.mapV (prs.map (fun p => (p.1, conv cf' p.2))))])
                  "aSlice" = none := by
                rw [recLookup_append_ne (by decide) _]; exact ha
              rcases List.mem_cons.mp hmem with heq' | hmem'
              · cases heq'
              · exact henv ▸ ih hr ha1 hmem' hsrc hconv
          | prim s => simp at h
          | sliceV c es => simp at h
          | nilSliceV => simp at h
    | sliceLoop f cf' =>
      simp only [evalStmts, ha] at h
      rcases List.mem_cons.mp hmem with heq' | hmem'
      · obtain ⟨rfl, rfl⟩ : fn = f ∧ cf = cf' := by
          cases heq'; exact ⟨rfl, rfl⟩
        rw [hsrc] at h
        cases gv with
        | sliceV c xs =>
          simp only at h
          simp only [convertedSlice, Option.some_inj] at hconv
          cases hr : evalStmts conv src
              (env ++ [("aSlice", GoVal.sliceV xs.length (xs.map (conv cf)))]) rest with
          | none => rw [hr] at h; cases h
          | some r =>
            rw [hr] at h
            have heq := Option.some.inj h
            have henv : r.1 = env' := congrArg Prod.fst heq
            have : recLookup (env ++ [("aSlice", GoVal.sliceV xs.length (xs.map (conv cf)))])
                "aSlice" = some (GoVal.sliceV xs.length (xs.map (conv cf))) :=
              recLookup_append_one ha _
            exact henv ▸ hconv ▸ evalStmts_preserves hr this
        | nilSliceV =>
          simp only at h
          simp only [convertedSlice, Option.some_inj] at hconv
          cases hr : evalStmts conv src (env ++ [("aSlice", GoVal.sliceV 0 [])]) rest with
          | none => rw [hr] at h; cases h
          | some r =>
            rw [hr] at h
            have heq := Option.some.inj h
            have henv : r.1 = env' := congrArg Prod.fst heq
            have : recLookup (env ++ [("aSlice", GoVal.sliceV 0 [])]) "aSlice" =
                some (GoVal.sliceV 0 []) := recLookup_append_one ha _
            exact henv ▸ hconv ▸ evalStmts_preserves hr this
        | prim s => simp [convertedSlice] at hconv
        | mapV prs => simp [convertedSlice] at hconv
      · cases hsrc' : recLookup src f with
        | none => rw [hsrc'] at h; cases h
        | some gv' =>
          rw [hsrc'] at h
          cases gv' with
          | sliceV c es =>
            simp only at h
            cases hr : evalStmts conv src
                (env ++ [("aSlice", GoVal.sliceV es.length (es.map (conv cf')))]) rest with
            | none => rw [hr] at h; cases h
            | some r =>
              have ha1 : recLookup
                  (env ++ [("aSlice", GoVal.sliceV es.length (es.map (conv cf')))])
                  "aSlice" = some (GoVal.sliceV es.length (es.map (conv cf'))) :=
                recLookup_append_one ha _
              exact absurd hmem' (evalStmts_no_sliceLoop hr ha1 fn cf)
          | nilSliceV =>
            simp only at h
            cases hr : evalStmts conv src (env ++ [("aSlice", GoVal.sliceV 0 [])]) rest with
            | none => rw [hr] at h; cases h
            | some r =>
              have ha1 : recLookup (env ++ [("aSlice", GoVal.sliceV 0 [])]) "aSlice" =
                  some (GoVal.sliceV 0 []) := recLookup_append_one ha _
              exact absurd hmem' (evalStmts_no_sliceLoop hr ha1 fn cf)
          | prim s => simp at h
          | mapV prs => simp at h

theorem evalDict_mem {conv : String → GoVal → GoVal} {src env : GoRec} :
    ∀ {dict : List (String × AssignExpr)} {out : GoRec} {k : Nat} {f : String}
      {e : AssignExpr},
      evalDict conv src env dict = some (out, k) → (f, e) ∈ dict →
      ∃ v, evalExpr conv src env e = some v ∧ (f, v) ∈ out := by
  intro dict
  induction dict with
  | nil => intro _ _ _ _ _ hmem; cases hmem
  | cons p rest ih =>
    intro out k f e h hmem
    simp only [evalDict] at h
    cases he : evalExpr conv src env p.2 with
    | none => rw [he] at h; cases h
    | some v =>
      rw [he] at h
      cases hr : evalDict conv src env rest with
      | none => rw [hr] at h; cases h
      | some r =>
        rw [hr] at h
        have heq := Option.some.inj h
        have hout : (p.1, v) :: r.1 = out := congrArg Prod.fst heq
        rcases List.mem_cons.mp hmem with heq' | hmem'
        · have hp1 : p.1 = f := (congrArg Prod.fst heq').symm
          have hp2 : p.2 = e := (congrArg Prod.snd heq').symm
          exact ⟨v, hp2 ▸ he, hout ▸ hp1 ▸ List.mem_cons_self _ _⟩
        · rcases ih hr hmem' with ⟨v', hv', hmem''⟩
          exact ⟨v', hv', hout ▸ List.mem_cons_of_mem _ hmem''⟩

theorem genBindingFromPB_sliceLoop_mem (n : String) (fm : List (String × FieldState))
    {fn : String} {st : FieldState} (hmem : (fn, st) ∈ fm)
    (h1 : st.IsStructType = true) (h2 : st.IsSlice = true) (h3 : st.IsMap = false) :
    ConvStmt.sliceLoop fn (st.TypeName ++ "FromPB") ∈ (genBindingFromPB n fm).stmts :=
  List.mem_filterMap.mpr ⟨(fn, st), hmem, by simp [h1, h2, h3]⟩

theorem genBindingToPB_sliceLoop_mem (n : String) (fm : List (String × FieldState))
    {fn : String} {st : FieldState} (hmem : (fn, st) ∈ fm)
    (h1 : st.IsStructType = true) (h2 : st.IsSlice = true) (h3 : st.IsMap = false) :
    ConvStmt.sliceLoop fn (st.TypeName ++ "ToPB") ∈ (genBindingToPB n fm).stmts :=
  List.mem_filterMap.mpr ⟨(fn, st), hmem, by simp [h1, h2, h3]⟩

theorem genBindingFromPB_dict_slice (n : String) (fm : List (String × FieldState))
    {fn : String} {st : FieldState} (hmem : (fn, st) ∈ fm)
    (h1 : st.IsStructType = true) (h2 : st.IsSlice = true) (h3 : st.IsMap = false) :
    (fn, AssignExpr.varRef "aSlice") ∈ (genBindingFromPB n fm).dict :=
  List.mem_map.mpr ⟨(fn, st), hmem, by simp [h1, h2, h3]⟩

theorem genBindingToPB_dict_slice (n : String) (fm : List (String × FieldState))
    {fn : String} {st : FieldState} (hmem : (fn, st) ∈ fm)
    (h1 : st.IsStructType = true) (h2 : st.IsSlice = true) (h3 : st.IsMap = false) :
    (fn, AssignExpr.varRef "aSlice") ∈ (genBindingToPB n fm).dict :=
  List.mem_map.mpr ⟨(fn, st), hmem, by simp [h1, h2, h3]⟩

theorem bindingFieldRefs_from_sub (n : String) (fm : List (String × FieldState)) :
    ∀ f ∈ bindingFieldRefs (genBindingFromPB n fm), f ∈ fm.map Prod.fst := by
  intro f hf
  simp only [bindingFieldRefs, genBindingFromPB, List.mem_append] at hf
  rcases hf with (hf | hf) | hf
  · rcases List.mem_map.mp hf with ⟨st, hst, rfl⟩
    rcases List.mem_filterMap.mp hst with ⟨p, hp, hFp⟩
    by_cases h1 : p.2.IsStructType
    · by_cases h2 : p.2.IsMap
      · simp only [h1, h2, Bool.not_true, Bool.false_eq_true, if_false, if_true,
          Option.some_inj] at hFp
        subst hFp
        exact List.mem_map.mpr ⟨p, hp, rfl⟩
      · by_cases h3 : p.2.IsSlice
        · simp only [h1, h2, h3, Bool.not_true, Bool.false_eq_true, if_false, if_true,
            Option.some_inj] at hFp
          subst hFp
          exact List.mem_map.mpr ⟨p, hp, rfl⟩
        · simp [h1, h2, h3] at hFp
    · simp [h1] at hFp
  · rcases List.mem_map.mp hf with ⟨q, hq, rfl⟩
    rcases List.mem_map.mp hq with ⟨p, hp, rfl⟩
    have : (if !p.2.IsStructType then (p.1, AssignExpr.srcField p.1)
        else if p.2.IsMap then (p.1, AssignExpr.varRef "m")
        else if p.2.IsSlice then (p.1, AssignExpr.varRef "aSlice")
        else (p.1, AssignExpr.convCall (p.2.TypeName ++ "FromPB") p.1)).1 = p.1 := by
      by_cases h1 : p.2.IsStructType <;> by_cases h2 : p.2.IsMap <;>
        by_cases h3 : p.2.IsSlice <;> simp [h1, h2, h3]
    rw [this]
    exact List.mem_map.mpr ⟨p, hp, rfl⟩
  · rcases List.mem_filterMap.mp hf with ⟨q, hq, hGq⟩
    rcases List.mem_map.mp hq with ⟨p, hp, rfl⟩
    by_cases h1 : p.2.IsStructType
    · by_cases h2 : p.2.IsMap
      · simp [h1, h2] at hGq
      · by_cases h3 : p.2.IsSlice
        · simp [h1, h2, h3] at hGq
        · simp only [h1, h2, h3, Bool.not_true, Bool.false_eq_true, if_false, if_true,
            Option.some_inj] at hGq
          subst hGq
          exact List.mem_map.mpr ⟨p, hp, rfl⟩
    · have : (if !p.2.IsStructType then (p.1, AssignExpr.srcField p.1)
          else if p.2.IsMap then (p.1, AssignExpr.varRef "m")
          else if p.2.IsSlice then (p.1, AssignExpr.varRef "aSlice")
          else (p.1, AssignExpr.convCall (p.2.TypeName ++ "FromPB") p.1)) =
          (p.1, AssignExpr.srcField p.1) := by
        simp [h1]
      rw [this] at hGq
      simp only [Option.some_inj] at hGq
      subst hGq
      exact List.mem_map.mpr ⟨p, hp, rfl⟩

theorem bindingFieldRefs_to_sub (n : String) (fm : List (String × FieldState)) :
    ∀ f ∈ bindingFieldRefs (genBindingToPB n fm), f ∈ fm.map Prod.fst := by
  intro f hf
  simp only [bindingFieldRefs, genBindingToPB, List.mem_append] at hf
  rcases hf with (hf | hf) | hf
  · rcases List.mem_map.mp hf with ⟨st, hst, rfl⟩
    rcases List.mem_filterMap.mp hst with ⟨p, hp, hFp⟩
    by_cases h1 : p.2.IsStructType
    · by_cases h2 : p.2.IsMap
      · simp only [h1, h2, Bool.not_true, Bool.false_eq_true, if_false, if_true,
          Option.some_inj] at hFp
        subst hFp
        exact List.mem_map.mpr ⟨p, hp, rfl⟩
      · by_cases h3 : p.2.IsSlice
        · simp only [h1, h2, h3, Bool.not_true, Bool.false_eq_true, if_false, if_true,
            Option.some_inj] at hFp
          subst hFp
          exact List.mem_map.mpr ⟨p, hp, rfl⟩
        · simp [h1, h2, h3] at hFp
    · simp [h1] at hFp
  · rcases List.mem_map.mp hf with ⟨q, hq, rfl⟩
    rcases List.mem_map.mp hq with ⟨p, hp, rfl⟩
    have : (if !p.2.IsStructType then (p.1, AssignExpr.srcField p.1)
        else if p.2.IsMap then (p.1, AssignExpr.varRef "m")
        else if p.2.IsSlice then (p.1, AssignExpr.varRef "aSlice")
        else (p.1, AssignExpr.convCall (p.2.TypeName ++ "ToPB") p.1)).1 = p.1 := by
      by_cases h1 : p.2.IsStructType <;> by_cases h2 : p.2.IsMap <;>
        by_cases h3 : p.2.IsSlice <;> simp [h1, h2, h3]
    rw [this]
    exact List.mem_map.mpr ⟨p, hp, rfl⟩
  · rcases List.mem_filterMap.mp hf with ⟨q, hq, hGq⟩
    rcases List.mem_map.mp hq with ⟨p, hp, rfl⟩
    by_cases h1 : p.2.IsStructType
    · by_cases h2 : p.2.IsMap
      · simp [h1, h2] at hGq
      · by_cases h3 : p.2.IsSlice
        · simp [h1, h2, h3] at hGq
        · simp only [h1, h2, h3, Bool.not_true, Bool.false_eq_true, if_false, if_true,
            Option.some_inj] at hGq
          subst hGq
          exact List.mem_map.mpr ⟨p, hp, rfl⟩
    · have : (if !p.2.IsStructType then (p.1, AssignExpr.srcField p.1)
          else if p.2.IsMap then (p.1, AssignExpr.varRef "m")
          else if p.2.IsSlice then (p.1, AssignExpr.varRef "aSlice")
          else (p.1, AssignExpr.convCall (p.2.TypeName ++ "ToPB") p.1)) =
          (p.1, AssignExpr.srcField p.1) := by
        simp [h1]
      rw [this] at hGq
      simp only [Option.some_inj] at hGq
      subst hGq
      exact List.mem_map.mpr ⟨p, hp, rfl⟩

theorem sampleRun_eq : Generate sampleSchema "" 3 = some (sampleUnits, sampleEvents) := by
  rfl

/-- C6: for every struct and every field whose name is in the fixed
internal-bookkeeping exclusion set, neither the emitted DTO type definition
nor either emitted conversion function references that field. -/
theorem c6_exclusion_invariant (schema : List Struct) (target : String) (fuel : Nat)
    (units : List GeneratedUnit) (evs : List Event)
    (hrun : Generate schema target fuel = some (units, evs)) :
    ∀ u ∈ units, ∀ f : String, pbNativeMem f = true → unitAvoidsField u f = true := by
  intro u hu f hf
  obtain ⟨hfrom, hto, hdf, hfm⟩ := generate_unitsOK schema target fuel units evs hrun u hu
  have hname : ∀ g, g ∈ u.fieldStates.map Prod.fst → (g == f) = false := by
    intro g hg
    rcases List.mem_map.mp hg with ⟨p, hp, rfl⟩
    have hnat := hfm p hp
    apply beq_false_of_ne
    intro hgf
    rw [hgf, hf] at hnat
    cases hnat
  simp only [unitAvoidsField, Bool.and_eq_true, List.all_eq_true]
  refine ⟨⟨⟨?_, ?_⟩, ?_⟩, ?_⟩
  · intro df hdfm
    have hnat := hdf df hdfm
    simp only [Bool.not_eq_true']
    apply beq_false_of_ne
    intro hgf
    rw [hgf, hf] at hnat
    cases hnat
  · intro p hp
    simp only [Bool.not_eq_true']
    exact hname p.1 (List.mem_map.mpr ⟨p, hp, rfl⟩)
  · intro g hg
    rw [hfrom] at hg
    simp only [Bool.not_eq_true']
    exact hname g (bindingFieldRefs_from_sub u.typeName u.fieldStates g hg)
  · intro g hg
    rw [hto] at hg
    simp only [Bool.not_eq_true']
    exact hname g (bindingFieldRefs_to_sub u.typeName u.fieldStates g hg)

/-- C6 witness: in the sample run the `EnvelopeRequest` struct carries a
`state` field in its pb source; the emitted unit references it nowhere. -/
theorem c6_exclusion_invariant_witness :
    pbNativeMem "state" = true ∧ sampleEnvUnit ∈ sampleUnits ∧
      unitAvoidsField sampleEnvUnit "state" = true :=
  ⟨by decide, by decide,
    c6_exclusion_invariant sampleSchema "" 3 sampleUnits sampleEvents sampleRun_eq
      sampleEnvUnit (by decide) "state" (by decide)⟩

/-- C7: every generated conversion function (both directions) begins with a
nil guard; applied to an absent source it returns absent immediately with no
per-field logic executed and no partial object constructed. -/
theorem c7_nil_guard (schema : List Struct) (target : String) (fuel : Nat)
    (units : List GeneratedUnit) (evs : List Event)
    (hrun : Generate schema target fuel = some (units, evs)) :
    ∀ u ∈ units, u.fromPB.nilGuard = true ∧ u.toPB.nilGuard = true ∧
      ∀ conv : String → GoVal → GoVal,
        evalBinding conv u.fromPB none = some ⟨none, 0⟩ ∧
        evalBinding conv u.toPB none = some ⟨none, 0⟩ := by
  intro u hu
  obtain ⟨hfrom, hto, _, _⟩ := generate_unitsOK schema target fuel units evs hrun u hu
  have hg1 : u.fromPB.nilGuard = true := by rw [hfrom]; rfl
  have hg2 : u.toPB.nilGuard = true := by rw [hto]; rfl
  exact ⟨hg1, hg2, fun conv =>
    ⟨by simp [evalBinding, hg1], by simp [evalBinding, hg2]⟩⟩

/-- C7 witness: the sample `EnvelopeRequest` conversion functions applied to a
nil source. -/
theorem c7_nil_guard_witness :
    sampleEnvUnit ∈ sampleUnits ∧
      sampleEnvUnit.fromPB.nilGuard = true ∧ sampleEnvUnit.toPB.nilGuard = true ∧
      evalBinding convId sampleEnvUnit.fromPB none = some ⟨none, 0⟩ ∧
      evalBinding convId sampleEnvUnit.toPB none = some ⟨none, 0⟩ := by
  have h := c7_nil_guard sampleSchema "" 3 sampleUnits sampleEvents sampleRun_eq
    sampleEnvUnit (by decide)
  exact ⟨by decide, h.1, h.2.1, (h.2.2 convId).1, (h.2.2 convId).2⟩

theorem evalBinding_slice_field {b : Binding} {fn cf : String}
    (hstmt : ConvStmt.sliceLoop fn cf ∈ b.stmts)
    (hdict : (fn, AssignExpr.varRef "aSlice") ∈ b.dict)
    {conv : String → GoVal → GoVal} {src out : GoRec} {k : Nat} {gv w : GoVal}
    (heval : evalBinding conv b (some src) = some ⟨some out, k⟩)
    (hsrc : recLookup src fn = some gv)
    (hconv : convertedSlice conv cf gv = some w) :
    (fn, w) ∈ out := by
  simp only [evalBinding] at heval
  cases hst : evalStmts conv src [] b.stmts with
  | none => rw [hst] at heval; cases heval
  | some r =>
    rw [hst] at heval
    obtain ⟨env, k1⟩ := r
    simp only at heval
    cases hd : evalDict conv src env b.dict with
    | none => rw [hd] at heval; cases heval
    | some r2 =>
      rw [hd] at heval
      obtain ⟨out2, k2⟩ := r2
      simp only at heval
      have heq := Option.some.inj heval
      have hout : some out2 = some out := congrArg EvalResult.result heq
      have hout2 : out2 = out := Option.some.inj hout
      have haS : recLookup env "aSlice" = some w :=
        evalStmts_sliceLoop_sound hst rfl hstmt hsrc hconv
      rcases evalDict_mem hd hdict with ⟨v, hv, hmem⟩
      simp only [evalExpr] at hv
      rw [haS] at hv
      have hvw : w = v := Option.some.inj hv
      exact hout2 ▸ hvw ▸ hmem

/-- C8: for every sequence-of-struct field, both generated conversion
functions contain the sequence conversion block (`make` of length zero and
capacity `len(src)`, then one same-direction conversion call appended per
source element in source order) and assign the built sequence to the target
field of the returned object; an empty or nil source sequence yields an
allocated empty sequence (`GoVal.sliceV 0 []`), never an absent field. -/
theorem c8_slice_conversion (schema : List Struct) (target : String) (fuel : Nat)
    (units : List GeneratedUnit) (evs : List Event)
    (hrun : Generate schema target fuel = some (units, evs)) :
    ∀ u ∈ units, ∀ fn st, (fn, st) ∈ u.fieldStates →
      st.IsStructType = true → st.IsSlice = true → st.IsMap = false →
      (ConvStmt.sliceLoop fn (st.TypeName ++ "FromPB") ∈ u.fromPB.stmts ∧
        (fn, AssignExpr.varRef "aSlice") ∈ u.fromPB.dict ∧
        ConvStmt.sliceLoop fn (st.TypeName ++ "ToPB") ∈ u.toPB.stmts ∧
        (fn, AssignExpr.varRef "aSlice") ∈ u.toPB.dict) ∧
      (∀ (conv : String → GoVal → GoVal) (src out : GoRec) (k : Nat) (gv w : GoVal),
        evalBinding conv u.fromPB (some src) = some ⟨some out, k⟩ →
        recLookup src fn = some gv →
        convertedSlice conv (st.TypeName ++ "FromPB") gv = some w →
        (fn, w) ∈ out) ∧
      (∀ (conv : String → GoVal → GoVal) (src out : GoRec) (k : Nat) (gv w : GoVal),
        evalBinding conv u.toPB (some src) = some ⟨some out, k⟩ →
        recLookup src fn = some gv →
        convertedSlice conv (st.TypeName ++ "ToPB") gv = some w →
        (fn, w) ∈ out) := by
  intro u hu fn st hmem h1 h2 h3
  obtain ⟨hfrom, hto, _, _⟩ := generate_unitsOK schema target fuel units evs hrun u hu
  have hs1 : ConvStmt.sliceLoop fn (st.TypeName ++ "FromPB") ∈ u.fromPB.stmts := by
    rw [hfrom]; exact genBindingFromPB_sliceLoop_mem _ _ hmem h1 h2 h3
  have hd1 : (fn, AssignExpr.varRef "aSlice") ∈ u.fromPB.dict := by
    rw [hfrom]; exact genBindingFromPB_dict_slice _ _ hmem h1 h2 h3
  have hs2 : ConvStmt.sliceLoop fn (st.TypeName ++ "ToPB") ∈ u.toPB.stmts := by
    rw [hto]; exact genBindingToPB_sliceLoop_mem _ _ hmem h1 h2 h3
  have hd2 : (fn, AssignExpr.varRef "aSlice") ∈ u.toPB.dict := by
    rw [hto]; exact genBindingToPB_dict_slice _ _ hmem h1 h2 h3
  exact ⟨⟨hs1, hd1, hs2, hd2⟩,
    fun conv src out k gv w he hsrc hc => evalBinding_slice_field hs1 hd1 he hsrc hc,
    fun conv src out k gv w he hsrc hc => evalBinding_slice_field hs2 hd2 he hsrc hc⟩

/-- C8 witness: converting a source whose `Items` sequence is allocated with
length 0 (capacity 5) through the sample `EnvelopeRequestFromPB` body yields a
returned object whose `Items` field is the freshly allocated empty sequence
`GoVal.sliceV 0 []`, not an absent value. -/
theorem c8_slice_conversion_witness :
    sampleEnvUnit ∈ sampleUnits ∧
      ("Items", sampleSliceState) ∈ sampleEnvUnit.fieldStates ∧
      evalBinding convId sampleEnvUnit.fromPB (some c8SrcRec) =
        some ⟨some [("Items", GoVal.sliceV 0 [])], 2⟩ ∧
      recLookup c8SrcRec "Items" = some (GoVal.sliceV 5 []) ∧
      convertedSlice convId ("Item" ++ "FromPB") (GoVal.sliceV 5 []) =
        some (GoVal.sliceV 0 []) ∧
      ("Items", GoVal.sliceV 0 []) ∈ [("Items", GoVal.sliceV 0 [])] := by
  refine ⟨by decide, by decide, by rfl, by rfl, by rfl, ?_⟩
  exact ((c8_slice_conversion sampleSchema "" 3 sampleUnits sampleEvents sampleRun_eq
      sampleEnvUnit (by decide) "Items" sampleSliceState (by decide) rfl rfl rfl).2.1
    convId c8SrcRec [("Items", GoVal.sliceV 0 [])] 2 (GoVal.sliceV 5 [])
    (GoVal.sliceV 0 []) (by rfl) (by rfl) (by rfl))

theorem mLookup_mSetVisited (m : Manifest) (x n : String) :
    mLookup (mSetVisited m x) n =
      if x = n then (mLookup m n).map (fun ss => ⟨ss.Struct, true⟩) else mLookup m n := by
  induction m with
  | nil => by_cases hx : x = n <;> simp [mSetVisited, mLookup, hx]
  | cons p rest ih =>
    by_cases hp : p.1 = x
    · subst hp
      by_cases hn : p.1 = n
      · subst hn; simp [mSetVisited, mLookup]
      · simp [mSetVisited, mLookup, hn]
    · by_cases hn : p.1 = n
      · subst hn
        have hxn : x ≠ p.1 := fun h => hp h.symm
        simp [mSetVisited, mLookup, hp, hxn]
      · simp [mSetVisited, mLookup, hp, hn, ih]

theorem mSetVisited_pres (m : Manifest) (x n : String) :
    (mLookup (mSetVisited m x) n).map (fun e => e.Struct) =
      (mLookup m n).map (fun e => e.Struct) := by
  rw [mLookup_mSetVisited]
  by_cases hx : x = n
  · simp only [hx, if_true]
    cases mLookup m n <;> simp
  · simp [hx]

theorem isVisited_mSetVisited (m : Manifest) (x n : String) :
    isVisited (mSetVisited m x) n =
      if x = n then (mLookup m n).isSome else isVisited m n := by
  rw [isVisited, mLookup_mSetVisited]
  by_cases hx : x = n
  · simp only [hx, if_true]
    cases mLookup m n <;> simp [isVisited]
  · simp only [hx, if_false]
    rfl

theorem pres_isSome {m m' : Manifest}
    (hpres : ∀ n, (mLookup m' n).map (fun e => e.Struct) =
      (mLookup m n).map (fun e => e.Struct)) (n : String) :
    (mLookup m' n).isSome = (mLookup m n).isSome := by
  have h := congrArg Option.isSome (hpres n)
  simpa [Option.isSome_map] using h

theorem pres_trans {m₁ m₂ m₃ : Manifest}
    (h₁ : ∀ n, (mLookup m₂ n).map (fun e => e.Struct) =
      (mLookup m₁ n).map (fun e => e.Struct))
    (h₂ : ∀ n, (mLookup m₃ n).map (fun e => e.Struct) =
      (mLookup m₂ n).map (fun e => e.Struct)) :
    ∀ n, (mLookup m₃ n).map (fun e => e.Struct) =
      (mLookup m₁ n).map (fun e => e.Struct) :=
  fun n => (h₂ n).trans (h₁ n)

theorem WFm_of_pres {m m' : Manifest}
    (hpres : ∀ n, (mLookup m' n).map (fun e => e.Struct) =
      (mLookup m n).map (fun e => e.Struct))
    (hwf : WFm m) : WFm m' := by
  intro n ss h
  have hmap := hpres n
  rw [h] at hmap
  cases hm : mLookup m n with
  | none => rw [hm] at hmap; cases hmap
  | some ss0 =>
    rw [hm] at hmap
    have : ss.Struct = ss0.Struct := Option.some.inj hmap
    rw [this]
    exact hwf n ss0 hm

theorem RankOK_of_pres {rank : String → Nat} {m m' : Manifest}
    (hpres : ∀ n, (mLookup m' n).map (fun e => e.Struct) =
      (mLookup m n).map (fun e => e.Struct))
    (hrk : RankOK rank m) : RankOK rank m' := by
  intro n ss h v hv hnat ft isSl isMp mk hp hsome
  have hmap := hpres n
  rw [h] at hmap
  cases hm : mLookup m n with
  | none => rw [hm] at hmap; cases hmap
  | some ss0 =>
    rw [hm] at hmap
    have hst : ss.Struct = ss0.Struct := Option.some.inj hmap
    rw [pres_isSome hpres] at hsome
    exact hrk n ss0 hm v (hst ▸ hv) hnat ft isSl isMp mk hp hsome

theorem unitNames_append (a b : List GeneratedUnit) :
    unitNames (a ++ b) = unitNames a ++ unitNames b :=
  List.map_append _ _ _

theorem FieldsPost.extend_noRec {rank : String → Nat} {B : Nat} {m : Manifest}
    {rest : FieldLoopOut} (hp : FieldsPost rank B m rest)
    (entry : String × FieldState) (df : DTOField)
    (hentry : entry.2.IsStructType = true → isVisited rest.manifest entry.2.TypeName = true) :
    FieldsPost rank B m
      ⟨rest.manifest, entry :: rest.fieldManifest, df :: rest.dtoFields,
        rest.units, rest.events⟩ where
  pres := hp.pres
  visitedChar := hp.visitedChar
  fresh := hp.fresh
  nodup := hp.nodup
  rankBound := hp.rankBound
  topo := hp.topo
  refsCovered := by
    intro p hpmem hstruct
    rcases List.mem_cons.mp hpmem with rfl | hpmem
    · exact hentry hstruct
    · exact hp.refsCovered p hpmem hstruct
  blocks := hp.blocks
  evCount := hp.evCount

theorem FieldsPost.combine_rec {rank : String → Nat} {B : Nat} {m : Manifest}
    {child : GenOut} {rest : FieldLoopOut} {ft : String} {ss ss1 : StructState}
    (entry : String × FieldState) (df : DTOField)
    (hl : mLookup m ft = some ss) (hv : ss.Visited = false)
    (cp : GenPost rank ft m child)
    (hss1 : mLookup child.manifest ft = some ss1)
    (rp : FieldsPost rank B (mSetVisited child.manifest ft) rest)
    (hftB : rank ft < B)
    (hTy : entry.2.IsStructType = true → entry.2.TypeName = ft) :
    FieldsPost rank B m
      ⟨rest.manifest, entry :: rest.fieldManifest, df :: rest.dtoFields,
        child.units ++ rest.units,
        child.events ++ [Event.setVisited ft ss1.Visited] ++ rest.events⟩ := by
  have hmft : isVisited m ft = false := by simp [isVisited, hl, hv]
  have hselff : ft ∈ unitNames child.units := cp.selfMem hmft
  have hcvis : isVisited child.manifest ft = true := (cp.visitedChar ft).mpr (Or.inr hselff)
  have hss1v : ss1.Visited = true := by
    have h := hcvis
    rw [isVisited, hss1] at h
    exact h
  have hm2char : ∀ n, isVisited (mSetVisited child.manifest ft) n = true ↔
      (isVisited m n = true ∨ n ∈ unitNames child.units) := by
    intro n
    rw [isVisited_mSetVisited]
    by_cases hfn : ft = n
    · subst hfn
      simp only [if_true, hss1, Option.isSome_some]
      exact ⟨fun _ => Or.inr hselff, fun _ => trivial⟩
    · simp only [hfn, if_false]
      exact cp.visitedChar n
  have hpres2 : ∀ n, (mLookup (mSetVisited child.manifest ft) n).map (fun e => e.Struct) =
      (mLookup m n).map (fun e => e.Struct) :=
    pres_trans cp.pres (mSetVisited_pres _ _)
  have hm2ft : isVisited (mSetVisited child.manifest ft) ft = true := by
    rw [isVisited_mSetVisited]
    simp [hss1]
  refine
    { pres := pres_trans hpres2 rp.pres
      visitedChar := ?_
      fresh := ?_
      nodup := ?_
      rankBound := ?_
      topo := ?_
      refsCovered := ?_
      blocks := ?_
      evCount := ?_ }
  · intro n
    rw [rp.visitedChar n, hm2char n]
    simp only [unitNames_append, List.mem_append]
    constructor
    · rintro ((h | h) | h)
      · exact Or.inl h
      · exact Or.inr (Or.inl h)
      · exact Or.inr (Or.inr h)
    · rintro (h | (h | h))
      · exact Or.inl (Or.inl h)
      · exact Or.inl (Or.inr h)
      · exact Or.inr h
  · intro n hn
    rw [unitNames_append, List.mem_append] at hn
    rcases hn with hn | hn
    · exact cp.fresh n hn
    · have h2 := rp.fresh n hn
      by_cases hm : isVisited m n = true
      · have : isVisited (mSetVisited child.manifest ft) n = true :=
          (hm2char n).mpr (Or.inl hm)
        rw [h2] at this
        cases this
      · cases hval : isVisited m n with
        | false => rfl
        | true => exact absurd hval hm
  · rw [unitNames_append]
    refine List.Nodup.append cp.nodup rp.nodup ?_
    intro a ha ha2
    have hvis : isVisited (mSetVisited child.manifest ft) a = true :=
      (hm2char a).mpr (Or.inr ha)
    have := rp.fresh a ha2
    rw [this] at hvis
    cases hvis
  · intro n hn
    rw [unitNames_append, List.mem_append] at hn
    rcases hn with hn | hn
    · exact lt_of_le_of_lt (cp.rankBound n hn) hftB
    · exact rp.rankBound n hn
  · intro u hu r hr
    rcases List.mem_append.mp hu with hu | hu
    · rcases cp.topo u hu r hr with h | ⟨pre, post, hsplit, hrpre⟩
      · exact Or.inl h
      · refine Or.inr ⟨pre, post ++ rest.units, ?_, hrpre⟩
        simp only [hsplit, List.append_assoc, List.cons_append]
    · rcases rp.topo u hu r hr with h | ⟨pre, post, hsplit, hrpre⟩
      · rcases (hm2char r).mp h with h | h
        · exact Or.inl h
        · rcases List.append_of_mem hu with ⟨s, t, hst⟩
          refine Or.inr ⟨child.units ++ s, t, ?_, ?_⟩
          · simp only [hst, List.append_assoc, List.cons_append]
          · rw [unitNames_append, List.mem_append]
            exact Or.inl h
      · refine Or.inr ⟨child.units ++ pre, post, ?_, ?_⟩
        · simp only [hsplit, List.append_assoc, List.cons_append]
        · rw [unitNames_append, List.mem_append]
          exact Or.inr hrpre
  · intro p hpmem hstruct
    rcases List.mem_cons.mp hpmem with rfl | hpmem
    · rw [hTy hstruct]
      exact (rp.visitedChar ft).mpr (Or.inl hm2ft)
    · exact rp.refsCovered p hpmem hstruct
  · intro n hn
    rw [unitNames_append, List.mem_append] at hn
    rcases hn with hn | hn
    · rcases cp.blocks n hn with ⟨pre, post, h⟩
      refine ⟨pre, post ++ [Event.setVisited ft ss1.Visited] ++ rest.events, ?_⟩
      simp only [h, List.append_assoc]
    · rcases rp.blocks n hn with ⟨pre, post, h⟩
      refine ⟨child.events ++ [Event.setVisited ft ss1.Visited] ++ pre, post, ?_⟩
      simp only [h, List.append_assoc]
  · intro n
    rw [hss1v]
    simp only [List.count_append, unitNames_append]
    rw [cp.evCount n, rp.evCount n]
    have hzero : List.count (Event.setVisited n false) [Event.setVisited ft true] = 0 := by
      simp [List.count_cons]
    rw [hzero]
    ring

theorem fieldsPost_empty {rank : String → Nat} {B : Nat} (m : Manifest) :
    FieldsPost rank B m ⟨m, [], [], [], []⟩ where
  pres := fun _ => rfl
  visitedChar := by intro n; simp [unitNames]
  fresh := by intro n hn; cases hn
  nodup := List.nodup_nil
  rankBound := by intro n hn; cases hn
  topo := by intro u hu; cases hu
  refsCovered := by intro p hp; cases hp
  blocks := by intro n hn; cases hn
  evCount := by intro n; simp [unitNames]

theorem genFields_post (rank : String → Nat) (B : Nat)
    (g : Struct → Manifest → Option GenOut)
    (hg : ∀ s m out, g s m = some out → WFm m → RankOK rank m →
      (mLookup m s.name).map (fun e => e.Struct) = some s →
      GenPost rank s.name m out) :
    ∀ (vs : List Var) (m : Manifest) (out : FieldLoopOut),
      genFields g vs m = some out → WFm m → RankOK rank m →
      (∀ v ∈ vs, pbNativeMem v.name = false →
        ∀ ft isSl isMp mk, parseFieldType v.type = some (ft, isSl, isMp, mk) →
          (mLookup m ft).isSome = true → rank ft < B) →
      FieldsPost rank B m out := by
  intro vs
  induction vs with
  | nil =>
    intro m out hout hwf hrk hedge
    simp only [genFields, Option.some_inj] at hout
    subst hout
    exact fieldsPost_empty m
  | cons v vs ih =>
    intro m out hout hwf hrk hedge
    by_cases hnat : pbNativeMem v.name
    · simp only [genFields, hnat, if_true] at hout
      exact ih m out hout hwf hrk
        (fun v' hv' => hedge v' (List.mem_cons_of_mem _ hv'))
    · simp only [genFields, hnat, Bool.false_eq_true, if_false] at hout
      cases hp : parseFieldType v.type with
      | none => rw [hp] at hout; cases hout
      | some pr =>
        obtain ⟨ft, isSl, isMp, mk⟩ := pr
        rw [hp] at hout
        simp only at hout
        cases hl : mLookup m ft with
        | none =>
          rw [hl] at hout
          simp only at hout
          cases hrest : genFields g vs m with
          | none => rw [hrest] at hout; cases hout
          | some rest =>
            rw [hrest] at hout
            simp only [Option.some_inj] at hout
            subst hout
            exact FieldsPost.extend_noRec
              (ih m rest hrest hwf hrk
                (fun v' hv' => hedge v' (List.mem_cons_of_mem _ hv')))
              _ _ (by intro h; cases h)
        | some ss =>
          rw [hl] at hout
          simp only at hout
          by_cases hv : ss.Visited
          · rw [if_pos hv] at hout
            cases hrest : genFields g vs m with
            | none => rw [hrest] at hout; cases hout
            | some rest =>
              rw [hrest] at hout
              simp only [Option.some_inj] at hout
              subst hout
              have hpost := ih m rest hrest hwf hrk
                (fun v' hv' => hedge v' (List.mem_cons_of_mem _ hv'))
              refine FieldsPost.extend_noRec hpost _ _ ?_
              intro _
              have hmv : isVisited m ft = true := by simp [isVisited, hl, hv]
              exact (hpost.visitedChar ft).mpr (Or.inl hmv)
          · rw [if_neg hv] at hout
            cases hchild : g ss.Struct m with
            | none => rw [hchild] at hout; cases hout
            | some child =>
              rw [hchild] at hout
              simp only at hout
              cases hl1 : mLookup child.manifest ft with
              | none => rw [hl1] at hout; cases hout
              | some ss1 =>
                rw [hl1] at hout
                simp only at hout
                cases hrest : genFields g vs (mSetVisited child.manifest ft) with
                | none => rw [hrest] at hout; cases hout
                | some rest =>
                  rw [hrest] at hout
                  simp only [Option.some_inj] at hout
                  subst hout
                  have hname : ss.Struct.name = ft := hwf ft ss hl
                  have hcons : (mLookup m ss.Struct.name).map (fun e => e.Struct) =
                      some ss.Struct := by rw [hname, hl]; rfl
                  have cp0 : GenPost rank ss.Struct.name m child :=
                    hg ss.Struct m child hchild hwf hrk hcons
                  have cp : GenPost rank ft m child := hname ▸ cp0
                  have hvfalse : ss.Visited = false := by
                    cases hvv : ss.Visited with
                    | false => rfl
                    | true => exact absurd hvv hv
                  have hpres2 : ∀ n,
                      (mLookup (mSetVisited child.manifest ft) n).map (fun e => e.Struct) =
                        (mLookup m n).map (fun e => e.Struct) :=
                    pres_trans cp.pres (mSetVisited_pres _ _)
                  have hwf2 : WFm (mSetVisited child.manifest ft) := WFm_of_pres hpres2 hwf
                  have hrk2 : RankOK rank (mSetVisited child.manifest ft) :=
                    RankOK_of_pres hpres2 hrk
                  have hedge2 : ∀ v' ∈ vs, pbNativeMem v'.name = false →
                      ∀ ft' isSl' isMp' mk',
                        parseFieldType v'.type = some (ft', isSl', isMp', mk') →
                        (mLookup (mSetVisited child.manifest ft) ft').isSome = true →
                        rank ft' < B := by
                    intro v' hv' hnat' ft' isSl' isMp' mk' hp' hsome'
                    rw [pres_isSome hpres2] at hsome'
                    exact hedge v' (List.mem_cons_of_mem _ hv') hnat' ft' isSl' isMp' mk'
                      hp' hsome'
                  have rp := ih (mSetVisited child.manifest ft) rest hrest hwf2 hrk2 hedge2
                  have hftB : rank ft < B :=
                    hedge v (List.mem_cons_self _ _)
                      (by cases hval : pbNativeMem v.name with
                        | false => rfl
                        | true => exact absurd hval hnat)
                      ft isSl isMp mk hp (by rw [hl]; rfl)
                  exact FieldsPost.combine_rec _ _ hl hvfalse cp hl1 rp hftB (fun _ => rfl)

theorem GenPost.already_visited {rank : String → Nat} {sname : String} {m : Manifest}
    (hvis : isVisited m sname = true) : GenPost rank sname m ⟨m, [], []⟩ where
  pres := fun _ => rfl
  visitedChar := by intro n; simp [unitNames]
  fresh := by intro n hn; cases hn
  nodup := List.nodup_nil
  rankBound := by intro n hn; cases hn
  topo := by intro u hu; cases hu
  selfMem := by intro h; rw [hvis] at h; cases h
  blocks := by intro n hn; cases hn
  evCount := by intro n; simp [unitNames]

theorem genDTORecursive_post (rank : String → Nat) :
    ∀ (fuel : Nat) (s : Struct) (m : Manifest) (out : GenOut),
      genDTORecursive fuel s m = some out → WFm m → RankOK rank m →
      (mLookup m s.name).map (fun e => e.Struct) = some s →
      GenPost rank s.name m out := by
  intro fuel
  induction fuel with
  | zero => intro s m out hout; cases hout
  | succ fuel ih =>
    intro s m out hout hwf hrk hcons
    simp only [genDTORecursive] at hout
    cases hl : mLookup m s.name with
    | none => rw [hl] at hout; cases hout
    | some ss =>
      rw [hl] at hout
      simp only at hout
      have hssS : ss.Struct = s := by
        rw [hl] at hcons
        exact Option.some.inj hcons
      by_cases hv : ss.Visited
      · rw [if_pos hv] at hout
        have heq := Option.some.inj hout
        subst heq
        exact GenPost.already_visited (by simp [isVisited, hl, hv])
      · rw [if_neg hv] at hout
        cases hfl : genFields (genDTORecursive fuel) s.vars m with
        | none => rw [hfl] at hout; cases hout
        | some fl =>
          rw [hfl] at hout
          simp only at hout
          cases hl1 : mLookup fl.manifest s.name with
          | none => rw [hl1] at hout; cases hout
          | some ss1 =>
            rw [hl1] at hout
            have hedge : ∀ v ∈ s.vars, pbNativeMem v.name = false →
                ∀ ft isSl isMp mk, parseFieldType v.type = some (ft, isSl, isMp, mk) →
                  (mLookup m ft).isSome = true → rank ft < rank s.name := by
              intro v hvmem hnat ft isSl isMp mk hp hsome
              exact hrk s.name ss hl v (hssS ▸ hvmem) hnat ft isSl isMp mk hp hsome
            have fp := genFields_post rank (rank s.name) (genDTORecursive fuel) ih
              s.vars m fl hfl hwf hrk hedge
            have hmfalse : isVisited m s.name = false := by
              cases hvv : ss.Visited with
              | false => simp [isVisited, hl, hvv]
              | true => exact absurd hvv hv
            have hnotmem : s.name ∉ unitNames fl.units := by
              intro hmem
              exact absurd (fp.rankBound s.name hmem) (lt_irrefl _)
            have hflfalse : isVisited fl.manifest s.name = false := by
              cases hval : isVisited fl.manifest s.name with
              | false => rfl
              | true =>
                rcases (fp.visitedChar s.name).mp hval with h | h
                · rw [hmfalse] at h; cases h
                · exact absurd h hnotmem
            have hss1v : ss1.Visited = false := by
              have h := hflfalse
              rw [isVisited, hl1] at h
              exact h
            have heq := Option.some.inj hout
            subst heq
            rw [hss1v]
            have hsomefl : (mLookup fl.manifest s.name).isSome = true := by
              rw [hl1]; rfl
            refine
              { pres := pres_trans fp.pres (mSetVisited_pres _ _)
                visitedChar := ?_
                fresh := ?_
                nodup := ?_
                rankBound := ?_
                topo := ?_
                selfMem := ?_
                blocks := ?_
                evCount := ?_ }
            · intro n
              simp only [GenOut.manifest, GenOut.units]
              rw [isVisited_mSetVisited, unitNames_append, List.mem_append]
              by_cases hn : s.name = n
              · subst hn
                rw [if_pos rfl]
                constructor
                · intro _
                  exact Or.inr (Or.inr (by simp [unitNames]))
                · intro _
                  exact hsomefl
              · simp only [hn, if_false]
                rw [fp.visitedChar n]
                constructor
                · rintro (h | h)
                  · exact Or.inl h
                  · exact Or.inr (Or.inl h)
                · rintro (h | (h | h))
                  · exact Or.inl h
                  · exact Or.inr h
                  · simp only [unitNames, List.map_cons, List.map_nil,
                      List.mem_singleton] at h
                    exact absurd h.symm hn
            · intro n hn
              simp only [GenOut.units, unitNames_append, List.mem_append] at hn
              rcases hn with hn | hn
              · exact fp.fresh n hn
              · simp only [unitNames, List.map_cons, List.map_nil,
                  List.mem_singleton] at hn
                subst hn
                exact hmfalse
            · simp only [GenOut.units]
              rw [unitNames_append]
              refine List.Nodup.append fp.nodup ?_ ?_
              · simp [unitNames]
              · intro a ha ha2
                simp only [unitNames, List.map_cons, List.map_nil,
                  List.mem_singleton] at ha2
                subst ha2
                exact hnotmem ha
            · intro n hn
              simp only [GenOut.units, unitNames_append, List.mem_append] at hn
              rcases hn with hn | hn
              · exact le_of_lt (fp.rankBound n hn)
              · simp only [unitNames, List.map_cons, List.map_nil,
                  List.mem_singleton] at hn
                subst hn
                exact le_refl _
            · intro u hu r hr
              simp only [GenOut.units] at hu ⊢
              rcases List.mem_append.mp hu with hu | hu
              · rcases fp.topo u hu r hr with h | ⟨pre, post, hsplit, hrpre⟩
                · exact Or.inl h
                · refine Or.inr ⟨pre, post ++
                    [⟨s.name, fl.dtoFields, fl.fieldManifest,
                      genBindingFromPB s.name fl.fieldManifest,
                      genBindingToPB s.name fl.fieldManifest⟩], ?_, hrpre⟩
                  simp only [hsplit, List.append_assoc, List.cons_append]
              · rcases List.mem_singleton.mp hu with rfl
                have hrr : ∃ p ∈ fl.fieldManifest, p.2.IsStructType = true ∧
                    p.2.TypeName = r := by
                  rcases List.mem_filterMap.mp hr with ⟨p, hp, hpr⟩
                  by_cases hst : p.2.IsStructType
                  · rw [if_pos hst] at hpr
                    exact ⟨p, hp, hst, Option.some.inj hpr⟩
                  · rw [if_neg hst] at hpr
                    cases hpr
                rcases hrr with ⟨p, hp, hst, hty⟩
                have hvisr : isVisited fl.manifest r = true :=
                  hty ▸ fp.refsCovered p hp hst
                rcases (fp.visitedChar r).mp hvisr with h | h
                · exact Or.inl h
                · exact Or.inr ⟨fl.units, [], rfl, h⟩
            · intro _
              simp only [GenOut.units]
              rw [unitNames_append, List.mem_append]
              exact Or.inr (by simp [unitNames])
            · intro n hn
              simp only [GenOut.units, GenOut.events, unitNames_append,
                List.mem_append] at hn ⊢
              rcases hn with hn | hn
              · rcases fp.blocks n hn with ⟨pre, post, h⟩
                refine ⟨pre, post ++ eventBlock s.name, ?_⟩
                simp only [h, eventBlock, List.append_assoc, List.cons_append,
                  List.nil_append]
              · simp only [unitNames, List.map_cons, List.map_nil,
                  List.mem_singleton] at hn
                subst hn
                refine ⟨fl.events, [], ?_⟩
                simp [eventBlock]
            · intro n
              simp only [GenOut.units, GenOut.events]
              rw [unitNames_append, List.count_append, List.count_append,
                fp.evCount n]
              congr 1
              by_cases hn : n = s.name
              · subst hn
                simp [unitNames, List.count_cons]
              · simp [unitNames, List.count_cons, List.count_nil, beq_iff_eq, hn,
                  Ne.symm hn]

theorem loopPost_empty (m : Manifest) : LoopPost m ⟨m, [], []⟩ where
  pres := fun _ => rfl
  visitedChar := by intro n; simp [unitNames]
  fresh := by intro n hn; cases hn
  nodup := List.nodup_nil
  topo := by intro u hu; cases hu
  blocks := by intro n hn; cases hn
  evCount := by intro n; simp [unitNames]

theorem LoopPost.combine {rank : String → Nat} {sname : String} {m : Manifest}
    {one two : GenOut} (gp : GenPost rank sname m one) (lp : LoopPost one.manifest two) :
    LoopPost m ⟨two.manifest, one.units ++ two.units, one.events ++ two.events⟩ := by
  refine
    { pres := pres_trans gp.pres lp.pres
      visitedChar := ?_
      fresh := ?_
      nodup := ?_
      topo := ?_
      blocks := ?_
      evCount := ?_ }
  · intro n
    rw [lp.visitedChar n, gp.visitedChar n]
    simp only [unitNames_append, List.mem_append]
    constructor
    · rintro ((h | h) | h)
      · exact Or.inl h
      · exact Or.inr (Or.inl h)
      · exact Or.inr (Or.inr h)
    · rintro (h | (h | h))
      · exact Or.inl (Or.inl h)
      · exact Or.inl (Or.inr h)
      · exact Or.inr h
  · intro n hn
    rw [unitNames_append, List.mem_append] at hn
    rcases hn with hn | hn
    · exact gp.fresh n hn
    · have h2 := lp.fresh n hn
      cases hval : isVisited m n with
      | false => rfl
      | true =>
        have : isVisited one.manifest n = true := (gp.visitedChar n).mpr (Or.inl hval)
        rw [h2] at this
        cases this
  · rw [unitNames_append]
    refine List.Nodup.append gp.nodup lp.nodup ?_
    intro a ha ha2
    have hvis : isVisited one.manifest a = true := (gp.visitedChar a).mpr (Or.inr ha)
    have := lp.fresh a ha2
    rw [this] at hvis
    cases hvis
  · intro u hu r hr
    rcases List.mem_append.mp hu with hu | hu
    · rcases gp.topo u hu r hr with h | ⟨pre, post, hsplit, hrpre⟩
      · exact Or.inl h
      · refine Or.inr ⟨pre, post ++ two.units, ?_, hrpre⟩
        simp only [hsplit, List.append_assoc, List.cons_append]
    · rcases lp.topo u hu r hr with h | ⟨pre, post, hsplit, hrpre⟩
      · rcases (gp.visitedChar r).mp h with h | h
        · exact Or.inl h
        · rcases List.append_of_mem hu with ⟨s, t, hst⟩
          refine Or.inr ⟨one.units ++ s, t, ?_, ?_⟩
          · simp only [hst, List.append_assoc, List.cons_append]
          · rw [unitNames_append, List.mem_append]
            exact Or.inl h
      · refine Or.inr ⟨one.units ++ pre, post, ?_, ?_⟩
        · simp only [hsplit, List.append_assoc, List.cons_append]
        · rw [unitNames_append, List.mem_append]
          exact Or.inr hrpre
  · intro n hn
    rw [unitNames_append, List.mem_append] at hn
    rcases hn with hn | hn
    · rcases gp.blocks n hn with ⟨pre, post, h⟩
      exact ⟨pre, post ++ two.events, by simp only [h, List.append_assoc]⟩
    · rcases lp.blocks n hn with ⟨pre, post, h⟩
      exact ⟨one.events ++ pre, post, by simp only [h, List.append_assoc]⟩
  · intro n
    rw [List.count_append, unitNames_append, List.count_append,
      gp.evCount n, lp.evCount n]

theorem genLoop_post (rank : String → Nat) (fuel : Nat) (target : String) :
    ∀ (structs : List Struct) (m : Manifest) (out : GenOut),
      genLoop fuel target structs m = some out → WFm m → RankOK rank m →
      (∀ s ∈ structs, (mLookup m s.name).map (fun e => e.Struct) = some s) →
      LoopPost m out := by
  intro structs
  induction structs with
  | nil =>
    intro m out hout _ _ _
    simp only [genLoop, Option.some_inj] at hout
    subst hout
    exact loopPost_empty m
  | cons s rest ih =>
    intro m out hout hwf hrk hcons
    simp only [genLoop] at hout
    by_cases hsel : (if target ≠ "" then s.name == target
        else strEndsWith s.name "Request" || strEndsWith s.name "Response") = true
    · rw [if_pos hsel] at hout
      cases hone : genDTORecursive fuel s m with
      | none => rw [hone] at hout; cases hout
      | some one =>
        rw [hone] at hout
        simp only at hout
        cases htwo : genLoop fuel target rest one.manifest with
        | none => rw [htwo] at hout; cases hout
        | some two =>
          rw [htwo] at hout
          have heq := Option.some.inj hout
          subst heq
          have gp := genDTORecursive_post rank fuel s m one hone hwf hrk
            (hcons s (List.mem_cons_self _ _))
          have lp := ih one.manifest two htwo (WFm_of_pres gp.pres hwf)
            (RankOK_of_pres gp.pres hrk)
            (fun s' hs' => (gp.pres s'.name).trans
              (hcons s' (List.mem_cons_of_mem _ hs')))
          exact LoopPost.combine gp lp
    · rw [if_neg hsel] at hout
      exact ih m out hout hwf hrk
        (fun s' hs' => hcons s' (List.mem_cons_of_mem _ hs'))

theorem nodup_append_cons_inj {β : Type} {l₁ l₂ l₃ l₄ : List β} {b : β}
    (hnd : (l₁ ++ b :: l₂).Nodup) (heq : l₁ ++ b :: l₂ = l₃ ++ b :: l₄) : l₁ = l₃ := by
  induction l₁ generalizing l₃ with
  | nil =>
    cases l₃ with
    | nil => rfl
    | cons c l₃' =>
      simp only [List.nil_append, List.cons_append, List.cons.injEq] at heq
      obtain ⟨rfl, heq2⟩ := heq
      exfalso
      have hmem : b ∈ l₂ := by
        rw [heq2]
        exact List.mem_append.mpr (Or.inr (List.mem_cons_self _ _))
      simp only [List.nil_append, List.nodup_cons] at hnd
      exact hnd.1 hmem
  | cons x l₁' ih =>
    cases l₃ with
    | nil =>
      simp only [List.cons_append, List.nil_append, List.cons.injEq] at heq
      obtain ⟨rfl, heq2⟩ := heq
      exfalso
      simp only [List.cons_append, List.nodup_cons] at hnd
      exact hnd.1 (List.mem_append.mpr (Or.inr (List.mem_cons_self _ _)))
    | cons y l₃' =>
      simp only [List.cons_append, List.cons.injEq] at heq
      obtain ⟨rfl, heq2⟩ := heq
      simp only [List.cons_append, List.nodup_cons] at hnd
      rw [ih hnd.2 heq2]

theorem loopTopo_toOrdered {units : List GeneratedUnit}
    (hnd : (unitNames units).Nodup)
    (htopo : ∀ u ∈ units, ∀ r ∈ structRefsOfUnit u,
      ∃ pre post, units = pre ++ u :: post ∧ r ∈ unitNames pre) :
    TopoOrdered units := by
  intro i h r hr
  have hu : units.get ⟨i, h⟩ ∈ units := List.get_mem units i h
  rcases htopo _ hu r hr with ⟨pre, post, hsplit, hrpre⟩
  have hdecomp : units = units.take i ++ units.get ⟨i, h⟩ :: units.drop (i + 1) := by
    conv_lhs => rw [← List.take_append_drop i units]
    rw [List.get_cons_drop]
  have hn1 : unitNames units =
      unitNames pre ++ (units.get ⟨i, h⟩).typeName :: unitNames post := by
    conv_lhs => rw [hsplit]
    rw [unitNames_append]
    rfl
  have hn2 : unitNames units =
      unitNames (units.take i) ++ (units.get ⟨i, h⟩).typeName ::
        unitNames (units.drop (i + 1)) := by
    conv_lhs => rw [hdecomp]
    rw [unitNames_append]
    rfl
  have hpre_eq : unitNames pre = unitNames (units.take i) :=
    nodup_append_cons_inj (hn1 ▸ hnd) (hn1.symm.trans hn2)
  rw [← hpre_eq]
  exact hrpre

theorem schemaRanked_bridge (schema : List Struct) (ranks : List (String × Nat))
    (hnodup : (schema.map (fun s => s.name)).Nodup)
    (hrk : SchemaRankedB schema ranks = true) :
    WFm (buildManifest schema) ∧ RankOK (rankOf ranks) (buildManifest schema) ∧
      (∀ s ∈ schema,
        (mLookup (buildManifest schema) s.name).map (fun e => e.Struct) = some s) ∧
      (∀ n, isVisited (buildManifest schema) n = false) := by
  have hbuild : ∀ n, mLookup (buildManifest schema) n =
      match schema.reverse.find? (fun s => s.name == n) with
      | some s => some ⟨s, false⟩
      | none => none := by
    intro n
    rw [buildManifest, mLookup_foldl_build]
    cases schema.reverse.find? (fun s => s.name == n) <;> simp [mLookup]
  have hlookup_shape : ∀ n ss, mLookup (buildManifest schema) n = some ss →
      ss.Struct ∈ schema ∧ ss.Struct.name = n ∧ ss.Visited = false := by
    intro n ss h
    rw [hbuild n] at h
    cases hf : schema.reverse.find? (fun s => s.name == n) with
    | none => rw [hf] at h; cases h
    | some t =>
      rw [hf] at h
      have hss : ss = ⟨t, false⟩ := (Option.some.inj h).symm
      subst hss
      refine ⟨List.mem_reverse.mp (List.mem_of_find?_eq_some hf), ?_, rfl⟩
      have := List.find?_some hf
      exact beq_iff_eq.mp this
  have hisme : ∀ ft, (mLookup (buildManifest schema) ft).isSome = true →
      ft ∈ schema.map (fun t => t.name) := by
    intro ft hsome
    cases hml : mLookup (buildManifest schema) ft with
    | none => rw [hml] at hsome; cases hsome
    | some ss =>
      obtain ⟨hmem, hname, _⟩ := hlookup_shape ft ss hml
      exact List.mem_map.mpr ⟨ss.Struct, hmem, hname⟩
  refine ⟨?_, ?_, ?_, ?_⟩
  · intro n ss h
    exact (hlookup_shape n ss h).2.1
  · intro n ss h v hv hnat ft isSl isMp mk hp hsome
    obtain ⟨hmem, hname, _⟩ := hlookup_shape n ss h
    have hall := (List.all_eq_true.mp hrk) ss.Struct hmem
    have hv' := (List.all_eq_true.mp hall) v hv
    rw [hnat] at hv'
    simp only [Bool.false_eq_true, if_false, hp] at hv'
    have hmemft : ft ∈ schema.map (fun t => t.name) := hisme ft hsome
    rw [if_pos (decide_eq_true hmemft)] at hv'
    rw [hname] at hv'
    exact of_decide_eq_true hv'
  · intro s hs
    rw [hbuild s.name]
    cases hf : schema.reverse.find? (fun t => t.name == s.name) with
    | none =>
      exfalso
      have := List.find?_eq_none.mp hf s (List.mem_reverse.mpr hs)
      simp at this
    | some t =>
      have htmem : t ∈ schema := List.mem_reverse.mp (List.mem_of_find?_eq_some hf)
      have htbeq := List.find?_some hf
      have htname : t.name = s.name := beq_iff_eq.mp htbeq
      have : t = s := List.inj_on_of_nodup_map hnodup htmem hs htname
      subst this
      rfl
  · intro n
    cases hml : mLookup (buildManifest schema) n with
    | none => simp [isVisited, hml]
    | some ss =>
      obtain ⟨_, _, hv⟩ := hlookup_shape n ss hml
      simp [isVisited, hml, hv]

/-- C3: for every schema whose struct-reference graph is acyclic (witnessed by
a rank certificate), the output sequence of a successful run is a valid
topological order — every struct-typed field reference of an emitted unit
names a unit emitted at a strictly earlier index. -/
theorem c3_topological_order (schema : List Struct) (target : String) (fuel : Nat)
    (units : List GeneratedUnit) (evs : List Event)
    (hnodup : (schema.map (fun s => s.name)).Nodup)
    (hacyc : SchemaAcyclic schema)
    (hrun : Generate schema target fuel = some (units, evs)) :
    TopoOrdered units := by
  obtain ⟨ranks, hrkB⟩ := hacyc
  obtain ⟨hwf, hrank, hcons, hunvis⟩ := schemaRanked_bridge schema ranks hnodup hrkB
  unfold Generate at hrun
  cases hloop : genLoop fuel target schema (buildManifest schema) with
  | none => rw [hloop] at hrun; cases hrun
  | some out =>
    rw [hloop] at hrun
    have hpair : (out.units, out.events) = (units, evs) := Option.some.inj hrun
    have huts : out.units = units := congrArg Prod.fst hpair
    have lp := genLoop_post (rankOf ranks) fuel target schema (buildManifest schema)
      out hloop hwf hrank hcons
    subst huts
    apply loopTopo_toOrdered lp.nodup
    intro u hu r hr
    rcases lp.topo u hu r hr with h | h
    · rw [hunvis r] at h; cases h
    · exact h

/-- C3 witness: the sample schema is acyclic and its run is topologically
ordered (`Item` before `EnvelopeRequest`). -/
theorem c3_topological_order_witness :
    (sampleSchema.map (fun s => s.name)).Nodup ∧
      SchemaRankedB sampleSchema sampleRanks = true ∧ TopoOrdered sampleUnits :=
  ⟨by decide, by decide,
    c3_topological_order sampleSchema "" 3 sampleUnits sampleEvents (by decide)
      ⟨sampleRanks, by decide⟩ sampleRun_eq⟩

/-- C4: visitation is idempotent.  Under an acyclicity certificate, a
successful recursive visit of a not-yet-visited struct emits exactly one
generated unit bearing that struct's name, and a second invocation on the
resulting manifest emits nothing (no units, no events) and leaves the
manifest unchanged. -/
theorem c4_visit_idempotent (rank : String → Nat) (fuel fuel2 : Nat) (s : Struct)
    (m : Manifest) (out : GenOut)
    (hwf : WFm m) (hrk : RankOK rank m)
    (hcons : (mLookup m s.name).map (fun e => e.Struct) = some s)
    (hunv : isVisited m s.name = false)
    (hrun : genDTORecursive fuel s m = some out) :
    (unitNames out.units).count s.name = 1 ∧
      genDTORecursive (fuel2 + 1) s out.manifest = some ⟨out.manifest, [], []⟩ := by
  have gp := genDTORecursive_post rank fuel s m out hrun hwf hrk hcons
  have hmem : s.name ∈ unitNames out.units := gp.selfMem hunv
  constructor
  · exact List.count_eq_one_of_mem gp.nodup hmem
  · have hvis : isVisited out.manifest s.name = true :=
      (gp.visitedChar s.name).mpr (Or.inr hmem)
    cases hl : mLookup out.manifest s.name with
    | none => rw [isVisited, hl] at hvis; cases hvis
    | some ss' =>
      have hv : ss'.Visited = true := by rw [isVisited, hl] at hvis; exact hvis
      simp [genDTORecursive, hl, hv]

/-- C4 witness: visiting `EnvelopeRequest` once emits exactly one unit named
`EnvelopeRequest`; a second visit on the resulting manifest emits nothing. -/
theorem c4_visit_idempotent_witness :
    isVisited (buildManifest sampleSchema) "EnvelopeRequest" = false ∧
      (unitNames sampleGenOut.units).count "EnvelopeRequest" = 1 ∧
      genDTORecursive 6 envStruct sampleGenOut.manifest =
        some ⟨sampleGenOut.manifest, [], []⟩ := by
  have hb := schemaRanked_bridge sampleSchema sampleRanks (by decide) (by decide)
  have h := c4_visit_idempotent (rankOf sampleRanks) 3 5 envStruct
    (buildManifest sampleSchema) sampleGenOut hb.1 hb.2.1
    (hb.2.2.1 envStruct (by decide)) (by decide) rfl
  exact ⟨by decide, h.1, h.2⟩

/-- C2 amended: in every successful run over an acyclic, duplicate-free
schema, each emitted struct's `Visited` flag transitions from `false` to
`true` exactly once (the whole trace holds exactly one such transition event
per emitted struct), and that transition happens immediately after the
struct's DTO type definition is appended and before either of its two
conversion functions is emitted — the trace contains the contiguous block
`[emitType, setVisited false, emitFromPB, emitToPB]`. -/
theorem c2_visited_timing_amended (schema : List Struct) (target : String) (fuel : Nat)
    (units : List GeneratedUnit) (evs : List Event)
    (hnodup : (schema.map (fun s => s.name)).Nodup)
    (hacyc : SchemaAcyclic schema)
    (hrun : Generate schema target fuel = some (units, evs)) :
    ∀ u ∈ units,
      evs.count (Event.setVisited u.typeName false) = 1 ∧
      ∃ pre post, evs = pre ++ eventBlock u.typeName ++ post := by
  obtain ⟨ranks, hrkB⟩ := hacyc
  obtain ⟨hwf, hrank, hcons, _⟩ := schemaRanked_bridge schema ranks hnodup hrkB
  unfold Generate at hrun
  cases hloop : genLoop fuel target schema (buildManifest schema) with
  | none => rw [hloop] at hrun; cases hrun
  | some out =>
    rw [hloop] at hrun
    have hpair : (out.units, out.events) = (units, evs) := Option.some.inj hrun
    have huts : out.units = units := congrArg Prod.fst hpair
    have hevs : out.events = evs := congrArg Prod.snd hpair
    have lp := genLoop_post (rankOf ranks) fuel target schema (buildManifest schema)
      out hloop hwf hrank hcons
    subst huts
    subst hevs
    intro u hu
    have hnmem : u.typeName ∈ unitNames out.units := List.mem_map.mpr ⟨u, hu, rfl⟩
    refine ⟨?_, lp.blocks u.typeName hnmem⟩
    rw [lp.evCount u.typeName]
    exact List.count_eq_one_of_mem lp.nodup hnmem

/-- C2 amended witness: in the sample run `EnvelopeRequest` has exactly one
false-to-true transition, inside its contiguous emission block. -/
theorem c2_visited_timing_amended_witness :
    sampleEnvUnit ∈ sampleUnits ∧
      sampleEvents.count (Event.setVisited sampleEnvUnit.typeName false) = 1 ∧
      ∃ pre post, sampleEvents = pre ++ eventBlock sampleEnvUnit.typeName ++ post := by
  have h := c2_visited_timing_amended sampleSchema "" 3 sampleUnits sampleEvents
    (by decide) ⟨sampleRanks, by decide⟩ sampleRun_eq sampleEnvUnit (by decide)
  exact ⟨by decide, h.1, h.2⟩

end Kit
